import Mathlib

/-!
Formal model of the LDPC engine of the ISTC'25 contest example code
(`ldpc.cpp` / `ldpc.h`): the `alist` codec, the random-graph constructor,
`sort_edges`, the GF(2) encoder builder `create_encoder`, the systematic
encoder `encode`, and the min-sum belief-propagation decoder `decode`.

Modelling conventions:
* C++ `int` is embedded as `Int`; loop bounds `for (i = 0; i < n; ++i)` with
  `int n` iterate `n.toNat` times (no iterations when `n <= 0`), matching the C++.
* a text file already opened for reading is a list of whitespace-separated
  integer tokens (`List Int`); `file >> x` on an exhausted or failed stream
  stores `0` (the C++11 semantics of a failed extraction) and keeps failing,
  which the token model reproduces by reading `0` from an empty list;
* an `ifstream` whose open failed is modelled as `none : Option (List Int)`;
* messages printed with `cerr`/`cout` on error paths are modelled as a `Bool`
  open-failure flag and a `Nat` count of format-error log lines;
* `float` arithmetic of the decoder is modelled exactly over `ℚ` (the claims
  under study are about selection and dataflow, not rounding);
* GF(2) values (`int` holding 0/1, combined with `^` and `&`) are `ZMod 2`.
-/

/-- Fields of the C++ `ldpc` class used by the `alist` codec and `random`:
dimensions `n_rows`, `n_cols`, the (redundant) edge counter `n_edges`, and the
parallel edge arrays `row`, `col` (a `1` of H at `(row[e], col[e])`). -/
structure ldpc where
  n_rows : Int
  n_cols : Int
  n_edges : Int
  row : List Int
  col : List Int
deriving DecidableEq

/-- The default-constructed `ldpc()` object: all counters zero, empty edge list. -/
def ldpc.new : ldpc := ⟨0, 0, 0, [], []⟩

/-- One `file >> x` extraction for `int x`: returns the next token, or `0` once
the stream is exhausted (failed extractions store `0` since C++11). -/
def readTok : List Int → Int × List Int
  | [] => (0, [])
  | t :: ts => (t, ts)

/-- Reads `n` consecutive `int` tokens (a loop of `file >> v[i]`). -/
def readToks : Nat → List Int → List Int × List Int
  | 0, ts => ([], ts)
  | n + 1, ts =>
    let (t, ts1) := readTok ts
    let (xs, ts2) := readToks n ts1
    (t :: xs, ts2)

/-- Acceptance test of `ldpc::read_alist` for one column entry `t` (a 1-based
row index): the `zero_pad` branch requires `row_index >= 1 && row_index <= n_rows`,
the other branch requires `row_index != 0 && row_index <= n_rows`. -/
def acceptEntry (zero_pad : Bool) (n_rows t : Int) : Bool :=
  if zero_pad then decide (1 ≤ t) && decide (t ≤ n_rows)
  else decide (t ≠ 0) && decide (t ≤ n_rows)

/-- Whether a rejected entry prints the `Row index out of range!` line: the
`zero_pad` branch logs every rejected entry, the other branch only logs
rejected entries with `row_index != 0`. -/
def logsEntry (zero_pad : Bool) (n_rows t : Int) : Bool :=
  if zero_pad then !acceptEntry zero_pad n_rows t
  else !acceptEntry zero_pad n_rows t && decide (t ≠ 0)

/-- Inner loop of `ldpc::read_alist` for one column `j`: reads `cnt` tokens,
pushes `(row_index - 1, j)` for each accepted entry (in reading order) and
counts the logged format errors.  Returns (new edges, log count, rest of file). -/
def readColumn (zero_pad : Bool) (n_rows j : Int) :
    Nat → List Int → List (Int × Int) × Nat × List Int
  | 0, ts => ([], 0, ts)
  | cnt + 1, ts =>
    let (t, ts1) := readTok ts
    let (es, k, ts2) := readColumn zero_pad n_rows j cnt ts1
    if acceptEntry zero_pad n_rows t then ((t - 1, j) :: es, k, ts2)
    else if logsEntry zero_pad n_rows t then (es, k + 1, ts2)
    else (es, k, ts2)

/-- Outer loop of `ldpc::read_alist` over columns `j, j+1, ...` (`m` columns
remain): the `zero_pad` branch reads `col_weights[j]` entries per column,
the other branch reads `max_col_weight` entries per column. -/
def readCols (zero_pad : Bool) (n_rows : Int) (col_weights : List Int)
    (max_col_weight : Int) : Nat → Nat → List Int → List (Int × Int) × Nat × List Int
  | _, 0, ts => ([], 0, ts)
  | j, m + 1, ts =>
    let cnt := if zero_pad then (col_weights.getD j 0).toNat else max_col_weight.toNat
    let (es1, k1, ts1) := readColumn zero_pad n_rows (j : Int) cnt ts
    let (es2, k2, ts2) := readCols zero_pad n_rows col_weights max_col_weight (j + 1) m ts1
    (es1 ++ es2, k1 + k2, ts2)

/-- Header parsing of `ldpc::read_alist`: `file >> n_cols >> n_rows`,
`file >> max_col_weight >> max_row_weight`, then the `n_cols` column weights
and the `n_rows` row weights. -/
def parseHeader (ts : List Int) :
    Int × Int × Int × Int × List Int × List Int × List Int :=
  let (n_cols, ts1) := readTok ts
  let (n_rows, ts2) := readTok ts1
  let (max_col_weight, ts3) := readTok ts2
  let (max_row_weight, ts4) := readTok ts3
  let (col_weights, ts5) := readToks n_cols.toNat ts4
  let (row_weights, ts6) := readToks n_rows.toNat ts5
  (n_cols, n_rows, max_col_weight, max_row_weight, col_weights, row_weights, ts6)

/-- Embedding of `ldpc::read_alist(filename, zero_pad)`.  The opened file is
`file` (`none` = the open failed: the C++ prints to `cerr` and returns at once,
before the `row.clear(); col.clear()` lines, so the object keeps its old
state).  On success the edge list is rebuilt from the column section only; the
row section of the file is never consumed.  Result: (new object state,
open-failure flag, number of `Row index out of range!` log lines). -/
def ldpc.read_alist (s : ldpc) (file : Option (List Int)) (zero_pad : Bool) :
    ldpc × Bool × Nat :=
  match file with
  | none => (s, true, 0)
  | some ts =>
    let (n_cols, n_rows, max_col_weight, _, col_weights, _, rest) := parseHeader ts
    let (es, errs, _) := readCols zero_pad n_rows col_weights max_col_weight 0 n_cols.toNat rest
    ({ n_rows := n_rows, n_cols := n_cols, n_edges := (es.length : Int),
       row := es.map (·.1), col := es.map (·.2) }, false, errs)

/-- Column weights recomputed by `ldpc::write_alist` (`col_weights[col[i]]++`
over the edge list; the C++ indexes blindly, which is well defined exactly when
every `col[i]` lies in `[0, n_cols)`, the regime of every theorem below). -/
def ldpc.colWeights (s : ldpc) : List Int :=
  (List.range s.n_cols.toNat).map fun j : Nat =>
    ((s.col.filter (· = ((j : Nat) : Int))).length : Int)

/-- Row weights recomputed by `ldpc::write_alist`. -/
def ldpc.rowWeights (s : ldpc) : List Int :=
  (List.range s.n_rows.toNat).map fun i : Nat =>
    ((s.row.filter (· = ((i : Nat) : Int))).length : Int)

/-- The C++ `*std::max_element` over a weight vector.  Weight vectors have
nonnegative entries and (in the defined regime `n_cols, n_rows >= 1`) are
nonempty, where folding `max` from `0` agrees with `max_element`. -/
def maxWeight (ws : List Int) : Int := ws.foldr max 0

/-- Column section written by `ldpc::write_alist`: for each column `j`, the
writer scans the whole edge list in order, emits `row[k] + 1` whenever
`col[k] = j` and, when `zero_pad` is set, emits the padding zeros inside the
scan loop (once per edge index `k`), exactly as the C++ does. -/
def ldpc.colSectionToks (s : ldpc) (zero_pad : Bool) (mcw : Int) (cw : List Int) :
    List Int :=
  (List.range s.n_cols.toNat).flatMap fun j : Nat =>
    (s.row.zip s.col).flatMap fun e =>
      (if e.2 = ((j : Nat) : Int) then [e.1 + 1] else []) ++
      (if zero_pad then List.replicate (mcw - cw.getD j 0).toNat 0 else [])

/-- Row section written by `ldpc::write_alist` (same shape, roles swapped). -/
def ldpc.rowSectionToks (s : ldpc) (zero_pad : Bool) (mrw : Int) (rw : List Int) :
    List Int :=
  (List.range s.n_rows.toNat).flatMap fun i : Nat =>
    (s.row.zip s.col).flatMap fun e =>
      (if e.1 = ((i : Nat) : Int) then [e.2 + 1] else []) ++
      (if zero_pad then List.replicate (mrw - rw.getD i 0).toNat 0 else [])

/-- Embedding of `ldpc::write_alist` (successful open): the token stream it
writes, i.e. `n_cols n_rows`, the two maximal weights, the recomputed column
and row weight vectors, the column section and the row section. -/
def ldpc.write_alist (s : ldpc) (zero_pad : Bool) : List Int :=
  let cw := s.colWeights
  let rw := s.rowWeights
  let mcw := maxWeight cw
  let mrw := maxWeight rw
  [s.n_cols, s.n_rows] ++ [mcw, mrw] ++ cw ++ rw ++
    s.colSectionToks zero_pad mcw cw ++ s.rowSectionToks zero_pad mrw rw

/-- The strict-weak-order comparator of `ldpc::sort_edges`, closed into the
corresponding total order on edges (lexicographic on `(row, col)`). -/
def edgeLE (a b : Int × Int) : Prop := a.1 < b.1 ∨ (a.1 = b.1 ∧ a.2 ≤ b.2)

instance : DecidableRel edgeLE := fun a b => by unfold edgeLE; infer_instance

instance : IsTotal (Int × Int) edgeLE := by
  constructor; intro a b; unfold edgeLE; omega

instance : IsTrans (Int × Int) edgeLE := by
  constructor; intro a b c; unfold edgeLE; omega

instance : IsAntisymm (Int × Int) edgeLE := by
  constructor; intro a b h1 h2
  have : a.1 = b.1 ∧ a.2 = b.2 := by unfold edgeLE at h1 h2; omega
  exact Prod.ext this.1 this.2

/-- Embedding of `ldpc::sort_edges`: stable-sorts the zipped edge list by the
lexicographic order on `(row, col)` and writes it back (this order is
antisymmetric, so any sort by it yields the same list as the C++
`stable_sort` with the strict comparator). -/
def ldpc.sort_edges (s : ldpc) : ldpc :=
  let es := List.insertionSort edgeLE (s.row.zip s.col)
  { s with row := es.map (·.1), col := es.map (·.2) }

/-- Stub list built by `ldpc::random`: entry `i` repeated `d[i]` times,
for `i` in `[0, r)`. -/
def stubs (r : Nat) (d : List Int) : List Int :=
  (List.range r).flatMap fun i => List.replicate (d.getD i 0).toNat ((i : Nat) : Int)

/-- Characterisation of the states `ldpc::random(r, c, rd, cd)` can leave in a
fresh (default-constructed) object: dimensions are set; `row` and `col` are
some permutations of the two stub multisets, pushed in lockstep (equal
lengths); `n_edges` is never assigned by `random`, so it keeps the
constructor's `0`.  Simplicity of the pairing is not recorded: after 10000
failed attempts `random` keeps the last (possibly non-simple) pairing. -/
def randomReachable (r c : Nat) (rd cd : List Int) (s : ldpc) : Prop :=
  s.n_rows = (r : Int) ∧ s.n_cols = (c : Int) ∧ s.n_edges = 0 ∧
  s.row.length = s.col.length ∧
  (s.row : Multiset Int) = (stubs r rd : Multiset Int) ∧
  (s.col : Multiset Int) = (stubs c cd : Multiset Int)

instance (r c : Nat) (rd cd : List Int) (s : ldpc) :
    Decidable (randomReachable r c rd cd s) := by
  unfold randomReachable; infer_instance

/-- Splits a token stream into consecutive chunks of the given sizes (the
spec-side view of the column section used to characterise `read_alist`). -/
def chunksOf : List Nat → List Int → List (List Int)
  | [], _ => []
  | n :: ns, ts => (readToks n ts).1 :: chunksOf ns (readToks n ts).2

/-- Modelled from the claim wording for the zero-padded variant: within one
column's `max_col_weight` entries, an entry of `0` terminates that column's
logical content (the remaining slots are still consumed), a valid index
`1..n_rows` contributes an edge, anything else is a format error. -/
def readColumnClaimPadded (n_rows j : Int) :
    Nat → List Int → List (Int × Int) × List Int
  | 0, ts => ([], ts)
  | cnt + 1, ts =>
    let (t, ts1) := readTok ts
    let (es, ts2) := readColumnClaimPadded n_rows j cnt ts1
    if t = 0 then ([], ts2)
    else if 1 ≤ t ∧ t ≤ n_rows then ((t - 1, j) :: es, ts2)
    else (es, ts2)

/-- Modelled from the claim wording: the whole zero-padded column section,
`max_col_weight` entries for every column. -/
def readColsClaimPadded (n_rows mcw : Int) :
    Nat → Nat → List Int → List (Int × Int)
  | _, 0, _ => []
  | j, m + 1, ts =>
    let (es1, ts1) := readColumnClaimPadded n_rows (j : Int) mcw.toNat ts
    es1 ++ readColsClaimPadded n_rows mcw (j + 1) m ts1

/-- Modelled from the claim wording: edge list that `read_alist` would produce
on the zero-padded reading of a file, to compare against the code. -/
def read_alist_claimZeroPad (ts : List Int) : List (Int × Int) :=
  let (n_cols, n_rows, max_col_weight, _, _, _, rest) := parseHeader ts
  readColsClaimPadded n_rows max_col_weight 0 n_cols.toNat rest

/-- Spec-side acceptance predicate of the `zero_pad = true` branch (an index
outside `1..n_rows` is a format error, logged and skipped). -/
def variableKeep (n_rows t : Int) : Prop := 1 ≤ t ∧ t ≤ n_rows

instance (n_rows t : Int) : Decidable (variableKeep n_rows t) := by
  unfold variableKeep; infer_instance

/-- Spec-side acceptance predicate of the `zero_pad = false` branch: a `0` is
skipped silently, any nonzero entry `≤ n_rows` — negative ones included — is
stored, and a nonzero entry `> n_rows` is a logged format error. -/
def paddedKeep (n_rows t : Int) : Prop := t ≠ 0 ∧ t ≤ n_rows

instance (n_rows t : Int) : Decidable (paddedKeep n_rows t) := by
  unfold paddedKeep; infer_instance

/-- Spec-side edge list of one column from its token chunk, given the
acceptance predicate. -/
def chunkEdges (keep : Int → Prop) [DecidablePred keep] (j : Int)
    (chunk : List Int) : List (Int × Int) :=
  (chunk.filter fun t => decide (keep t)).map fun t => (t - 1, j)

/-- Spec-side edge list of the whole column section from column `j` on: each
chunk contributes its accepted entries, in order. -/
def sectionEdges (keep : Int → Int → Prop) [∀ a b, Decidable (keep a b)]
    (n_rows : Int) : Nat → List (List Int) → List (Int × Int)
  | _, [] => []
  | j, ch :: rest =>
    chunkEdges (keep n_rows) (j : Int) ch ++ sectionEdges keep n_rows (j + 1) rest

/-- Tokens remaining after consuming consecutive chunks of the given sizes. -/
def dropToks : List Nat → List Int → List Int
  | [], ts => ts
  | n :: ns, ts => dropToks ns (readToks n ts).2

/- ---------------------------------------------------------------------------
GF(2) encoder builder `ldpc::create_encoder` (src/unnamed/part_001:213-312).
The dense matrix and the column permutation are embedded as total functions;
entries/values at positions `≥ n_cols` (resp. rows `≥ n_rows`) are never
consulted by the algorithm, matching the C++ arrays.
--------------------------------------------------------------------------- -/

/-- Dense `n_rows × n_cols` GF(2) matrix materialised from the edge list:
`dense_matrix[row[i]][col[i]] = 1`. -/
def denseMatrix (edges : List (Nat × Nat)) : Nat → Nat → ZMod 2 :=
  fun i j => if (i, j) ∈ edges then 1 else 0

/-- First index `x ∈ [s, s + cnt)` with `P x = true`, scanning upward. -/
def findIn (P : Nat → Bool) : Nat → Nat → Option Nat
  | _, 0 => none
  | s, cnt + 1 => if P s then some s else findIn P (s + 1) cnt

/-- Pivot search of `create_encoder` at pivot `i`: first column `k ∈ [i, n_cols)`
(outer loop) containing a row `j ∈ [i, n_rows)` (inner loop) with
`dense_matrix[j][perm[k]] = 1`; `cnt` columns remain starting at `k`. -/
def findPivot (D : Nat → Nat → ZMod 2) (perm : Nat → Nat) (n_rows i : Nat) :
    Nat → Nat → Option (Nat × Nat)
  | _, 0 => none
  | k, cnt + 1 =>
    match findIn (fun j => decide (D j (perm k) = 1)) i (n_rows - i) with
    | some j => some (k, j)
    | none => findPivot D perm n_rows i (k + 1) cnt

/-- `std::swap(perm[i], perm[k])` on the permutation-as-function. -/
def swapFun (i k : Nat) (p : Nat → Nat) : Nat → Nat :=
  fun x => if x = i then p k else if x = k then p i else p x

/-- `std::swap(dense_matrix[i], dense_matrix[j])` (row swap). -/
def rowSwapD (i j : Nat) (D : Nat → Nat → ZMod 2) : Nat → Nat → ZMod 2 :=
  fun a b => D (if a = i then j else if a = j then i else a) b

/-- Elimination step: row `i` is XORed into every other row whose entry in the
pivot column `pi` is `1`.  The C++ XORs entries `l < n_cols` only; columns
`≥ n_cols` are zero throughout and never consulted, so XORing every column
agrees with it wherever the algorithm reads the matrix. -/
def elimRows (i pi : Nat) (D : Nat → Nat → ZMod 2) : Nat → Nat → ZMod 2 :=
  fun a b => if a ≠ i ∧ D a pi = 1 then D a b + D i b else D a b

/-- The row-reduction loop of `create_encoder` with column pivoting, starting
at pivot `i` with `fuel` pivots remaining; returns the final matrix, the final
column permutation and the index at which the loop stopped (`= n_rows` iff no
early `break`, i.e. full row rank was found). -/
def gaussAux (n_rows n_cols : Nat) :
    Nat → Nat → (Nat → Nat → ZMod 2) → (Nat → Nat) →
    (Nat → Nat → ZMod 2) × (Nat → Nat) × Nat
  | i, 0, D, p => (D, p, i)
  | i, fuel + 1, D, p =>
    match findPivot D p n_rows i i (n_cols - i) with
    | none => (D, p, i)
    | some (k, j) =>
      let p1 := swapFun i k p
      let D1 := rowSwapD i j D
      let D2 := elimRows i (p1 i) D1
      gaussAux n_rows n_cols (i + 1) fuel D2 p1

/-- Runs the full reduction: pivots `i = 0, ..., n_rows - 1` from the identity
permutation. -/
def gauss (n_rows n_cols : Nat) (D : Nat → Nat → ZMod 2) :
    (Nat → Nat → ZMod 2) × (Nat → Nat) × Nat :=
  gaussAux n_rows n_cols 0 n_rows D id

/-- Rearranged permutation placing the info block first: `perm[j] = tmp[r + j]`
for `j < k` and `perm[j + k] = tmp[j]` for `j < r` (`k = n_cols - n_rows`).
Positions `≥ n_cols` are never consulted. -/
def permFinal (n_rows n_cols : Nat) (p : Nat → Nat) : Nat → Nat :=
  fun x => if x < n_cols - n_rows then p (n_rows + x) else p (x - (n_cols - n_rows))

/-- `invperm[perm[j]] = j` over `j < n_cols`, as a function: the (first, hence
for a bijection the unique) preimage of `y` under `p` below `n_cols`. -/
def invPermFun (n_cols : Nat) (p : Nat → Nat) : Nat → Nat :=
  fun y => (findIn (fun q => decide (p q = y)) 0 n_cols).getD 0

/-- Result of `create_encoder`: the `parity_generator` table (`k` rows of `r`
entries, `parity_generator[j][i] = dense_matrix[i][perm[r + j]]`) and the
relabeled `col[]` array (`col[e] := invperm[col[e]]`; `row[]` is unchanged). -/
structure EncoderResult where
  parity_generator : List (List (ZMod 2))
  col : List Nat
deriving DecidableEq

/-- Embedding of `ldpc::create_encoder` on a code with `n_rows` checks,
`n_cols` variables and the given edge list. -/
def ldpc.create_encoder (n_rows n_cols : Nat) (edges : List (Nat × Nat)) :
    EncoderResult :=
  let res := gauss n_rows n_cols (denseMatrix edges)
  let Df := res.1
  let pf := res.2.1
  let k := n_cols - n_rows
  let pg := (List.range k).map fun j =>
    (List.range n_rows).map fun i => Df i (pf (n_rows + j))
  let ip := invPermFun n_cols (permFinal n_rows n_cols pf)
  ⟨pg, edges.map fun e => ip e.2⟩

/-- Embedding of `ldpc::encode(info, cw)`: with an empty `parity_generator`
the C++ prints `Encoder not created` to `cerr` and returns at once, leaving
the caller's buffer `cw` (and the code object, which `encode` never writes)
unchanged; the flag records that error.  Otherwise the first `k` codeword bits
copy `info` and bit `k + i` is `XOR_j (info[j] & parity_generator[j][i])`. -/
def ldpc.encode (n_rows n_cols : Nat) (pg : List (List (ZMod 2)))
    (info cw : List (ZMod 2)) : Bool × List (ZMod 2) :=
  if pg.isEmpty then (true, cw)
  else
    let k := n_cols - n_rows
    (false, (List.range n_cols).map fun q =>
      if q < k then info.getD q 0
      else ∑ j ∈ Finset.range k, info.getD j 0 * (pg.getD j []).getD (q - k) 0)

/-- The claim's parity condition at check `i`: XOR over all edges `e` with
`row[e] = i` of `cw[col[e]]`, over the (relabeled) edge list. -/
def checkXor (edges : List (Nat × Nat)) (i : Nat) (cw : List (ZMod 2)) : ZMod 2 :=
  (edges.map fun e => if e.1 = i then cw.getD e.2 0 else 0).sum

/-- Spec-side log counter for a column section: entries of each chunk
satisfying the branch's log condition. -/
def sectionLogCount (logp : Int → Int → Prop) [∀ a b, Decidable (logp a b)]
    (n_rows : Int) (chunks : List (List Int)) : Nat :=
  (chunks.map fun ch => (ch.filter fun t => decide (logp n_rows t)).length).sum

/-- Log condition of the `zero_pad = true` branch, from the amended claim:
every rejected entry is logged. -/
def variableLogs (n_rows t : Int) : Prop := ¬ variableKeep n_rows t

instance (n_rows t : Int) : Decidable (variableLogs n_rows t) := by
  unfold variableLogs; infer_instance

/-- Log condition of the `zero_pad = false` branch, from the amended claim:
only nonzero entries above `n_rows` are logged. -/
def paddedLogs (n_rows t : Int) : Prop := t ≠ 0 ∧ n_rows < t

instance (n_rows t : Int) : Decidable (paddedLogs n_rows t) := by
  unfold paddedLogs; infer_instance

/- ---------------------------------------------------------------------------
Min-sum belief-propagation decoder `ldpc::decode` (src/unnamed/part_001:314-434).
The compiled configuration has `MIN_SUM = 1`, so the sum-product branch
(tanh/atanh over floats) is dead code and only the min-sum path is embedded;
its constants are below.  `float` values are modelled exactly over `ℚ`
(`MIN_SUM_OFFSET = 0.3f` is written as `3/10`; the claims under study do not
depend on the float rounding of `0.3`).
--------------------------------------------------------------------------- -/

def MIN_SUM : Bool := true

def BIT_NODE_SCALE : ℚ := 1

def MIN_SUM_OFFSET : ℚ := 3 / 10

def MIN_LLR : ℚ := 25 / 32768

def MAX_LLR : ℚ := 17

/-- `std::signbit` on the exact-rational model of `float` (no negative zero). -/
def signbit (x : ℚ) : Bool := decide (x < 0)

/-- The per-check accumulators of the min-sum check-node update. -/
structure CheckAcc where
  check_sign : List Bool
  check_accum : List ℚ
  check_accum2 : List ℚ
deriving DecidableEq

/-- One edge's contribution to the min-sum check-node accumulation
(`check_sign[row[i]] ^= signbit; running smallest / second smallest of
`|bit_message[i]|`). -/
def checkAccumStep (acc : CheckAcc) (ri : Nat) (bm : ℚ) : CheckAcc :=
  let s := acc.check_sign.getD ri false
  let a := acc.check_accum.getD ri 0
  let a2 := acc.check_accum2.getD ri 0
  let acc1 : CheckAcc := { acc with check_sign := acc.check_sign.set ri (xor s (signbit bm)) }
  if |bm| < a then
    { acc1 with check_accum := acc1.check_accum.set ri |bm|,
                check_accum2 := acc1.check_accum2.set ri a }
  else if |bm| < a2 then
    { acc1 with check_accum2 := acc1.check_accum2.set ri |bm| }
  else acc1

/-- First min-sum loop over the edges: accumulators start at `0`/`MAX_LLR`
(`std::fill`) and every edge is folded in, in edge-list order. -/
def checkNodePass (rowL : List Nat) (bm : List ℚ) (n_rows : Nat) : CheckAcc :=
  ((rowL.zip bm).foldl (fun acc e => checkAccumStep acc e.1 e.2)
    ⟨List.replicate n_rows false, List.replicate n_rows MAX_LLR,
      List.replicate n_rows MAX_LLR⟩)

/-- Second min-sum loop: the check message of each edge.  `temp` is the
smallest accumulated magnitude, replaced by the second smallest when the
edge's own magnitude equals it; the offset is subtracted after that selection
(no clamping at zero), and the sign is flipped when the check's sign parity
XOR the edge's own sign bit is set. -/
def checkMessages (rowL : List Nat) (bm : List ℚ) (acc : CheckAcc) : List ℚ :=
  (rowL.zip bm).map fun e =>
    let t0 := acc.check_accum.getD e.1 0
    let t1 := if |e.2| = t0 then acc.check_accum2.getD e.1 0 else t0
    let temp := t1 - MIN_SUM_OFFSET
    if xor (acc.check_sign.getD e.1 false) (signbit e.2) then -temp else temp

/-- Variable-node update: `bit_accum[v] = llr_in[v] / BIT_NODE_SCALE`, plus all
incident check messages; then `bit_message[e] = BIT_NODE_SCALE *
(bit_accum[col[e]] - check_message[e])`.  Returns `(bit_accum, bit_message)`. -/
def varNodePass (colL : List Nat) (llr_in : List ℚ) (n_cols : Nat)
    (cm : List ℚ) : List ℚ × List ℚ :=
  let ba0 := (List.range n_cols).map fun v => llr_in.getD v 0 / BIT_NODE_SCALE
  let ba := (colL.zip cm).foldl (fun b e => b.set e.1 (b.getD e.1 0 + e.2)) ba0
  (ba, (colL.zip cm).map fun e => BIT_NODE_SCALE * (ba.getD e.1 0 - e.2))

/-- How the iteration loop of `decode` ended: it ran out of iterations, or the
early-termination `break` fired at the given iteration index. -/
inductive DecExit where
  | ranOut : DecExit
  | early : Nat → DecExit
deriving DecidableEq

/-- Loop-carried state of `decode`: the messages, the posterior accumulator
(zero-filled at entry) and the `is_codeword` flag, which the C++ declares
uninitialised (`bool is_codeword;`) and assigns only inside the loop —
modelled as `none` until first assigned. -/
structure DecSt where
  bit_message : List ℚ
  bit_accum : List ℚ
  is_codeword : Option Bool
deriving DecidableEq

/-- The iteration loop of `decode` (min-sum configuration), instrumented: from
iteration index `iter` with `fuel` iterations remaining, returns the final
state, how the loop exited, and how many check-node and variable-node updates
were executed.  Each iteration: check-node update; early-termination test
(`iter > 0 && is_codeword` ⇒ `break`, skipping that iteration's variable-node
update); otherwise variable-node update and continue. -/
def decodeLoop (rowL colL : List Nat) (n_rows n_cols : Nat) (llr_in : List ℚ) :
    Nat → Nat → DecSt → DecSt × DecExit × Nat × Nat
  | _, 0, st => (st, DecExit.ranOut, 0, 0)
  | iter, fuel + 1, st =>
    let acc := checkNodePass rowL st.bit_message n_rows
    let cm := checkMessages rowL st.bit_message acc
    let is_cw := acc.check_sign.all (· = false)
    if 0 < iter ∧ is_cw then
      ({ st with is_codeword := some is_cw }, DecExit.early iter, 1, 0)
    else
      let vp := varNodePass colL llr_in n_cols cm
      let r := decodeLoop rowL colL n_rows n_cols llr_in (iter + 1) fuel
        { bit_message := vp.2, bit_accum := vp.1, is_codeword := some is_cw }
      (r.1, r.2.1, r.2.2.1 + 1, r.2.2.2 + 1)

/-- Embedding of `ldpc::decode(llr_in, n_iter, llr_out)` with `MIN_SUM = 1`:
`bit_message[e]` starts as `llr_in[col[e]]`, `bit_accum` as zeros; after the
loop, `llr_out = bit_accum` and the return value is `is_codeword` — an
uninitialised (`none`) bool when no iteration ever assigned it. -/
def ldpc.decode (rowL colL : List Nat) (n_rows n_cols : Nat)
    (llr_in : List ℚ) (n_iter : Nat) : List ℚ × Option Bool :=
  let bm0 := colL.map fun c => llr_in.getD c 0
  let st0 : DecSt := ⟨bm0, List.replicate n_cols 0, none⟩
  let r := decodeLoop rowL colL n_rows n_cols llr_in 0 n_iter st0
  (r.1.bit_accum, r.1.is_codeword)

/-- Same run, but also reporting the exit kind and the number of check-node
and variable-node updates executed (used to state the termination claim). -/
def ldpc.decodeInstr (rowL colL : List Nat) (n_rows n_cols : Nat)
    (llr_in : List ℚ) (n_iter : Nat) : DecSt × DecExit × Nat × Nat :=
  let bm0 := colL.map fun c => llr_in.getD c 0
  let st0 : DecSt := ⟨bm0, List.replicate n_cols 0, none⟩
  decodeLoop rowL colL n_rows n_cols llr_in 0 n_iter st0

/-- The list of incoming magnitudes `|bit_message[e]|` of check `i`, in
edge-list order (spec-side view for the check-message claim). -/
def checkMags (rowL : List Nat) (bm : List ℚ) (i : Nat) : List ℚ :=
  ((rowL.zip bm).filter fun e => decide (e.1 = i)).map fun e => |e.2|

/-- The check's smallest incoming magnitude (first element of the sorted
magnitude list), as the claim reads it. -/
def smallestMag (rowL : List Nat) (bm : List ℚ) (i : Nat) : ℚ :=
  (List.insertionSort (· ≤ ·) (checkMags rowL bm i)).getD 0 0

/-- The check's second-smallest incoming magnitude, with multiplicity (second
element of the sorted magnitude list), as the claim reads it. -/
def secondMag (rowL : List Nat) (bm : List ℚ) (i : Nat) : ℚ :=
  (List.insertionSort (· ≤ ·) (checkMags rowL bm i)).getD 1 0

/-- XOR of the sign bits of all incoming messages of check `i` (spec-side). -/
def signXorOf (rowL : List Nat) (bm : List ℚ) (i : Nat) : Bool :=
  (((rowL.zip bm).filter fun e => decide (e.1 = i)).map fun e => signbit e.2).foldr xor false

/-- Modelled from the claim wording: the check message of edge `e` is
`s · (m − MIN_SUM_OFFSET)` where `m` is the second-smallest incoming magnitude
of the check when `|bit_message[e]|` equals its smallest one and the smallest
otherwise, and `s = −1` iff the XOR of the check's incoming sign bits XOR the
edge's own sign bit is set. -/
def checkMessageClaim (rowL : List Nat) (bm : List ℚ) (e : Nat) : ℚ :=
  let ri := rowL.getD e 0
  let x := bm.getD e 0
  let m := if |x| = smallestMag rowL bm ri then secondMag rowL bm ri
           else smallestMag rowL bm ri
  if xor (signXorOf rowL bm ri) (signbit x) then -(m - MIN_SUM_OFFSET)
  else m - MIN_SUM_OFFSET

/-- One step of the running two-smallest tracker on a magnitude `m` (the
accumulator update of the min-sum check-node pass, on `|bit_message|`). -/
def twoSmall (ab : ℚ × ℚ) (m : ℚ) : ℚ × ℚ :=
  if m < ab.1 then (m, ab.1) else if m < ab.2 then (ab.1, m) else ab

/-- The incoming `bit_message` values of check `i`, in edge order. -/
def incoming (rowL : List Nat) (bm : List ℚ) (i : Nat) : List ℚ :=
  ((rowL.zip bm).filter fun e => decide (e.1 = i)).map (·.2)

/- ---------------------------------------------------------------------------
Theorems.  Each claim Cn of the specification gets one theorem (plus, where
required, a witness instantiation or a concrete counterexample).
--------------------------------------------------------------------------- -/

/-- Loop-level lemma behind the termination claim: starting at iteration
`iter` with `fuel` iterations left, if the loop runs out then all `fuel`
iterations did both updates; if it breaks at iteration `i`, then `i ≥ iter`,
`i ≥ 1`, `i < iter + fuel`, exactly `i - iter + 1` check-node and `i - iter`
variable-node updates ran, and the termination flag was assigned `true`. -/
theorem decodeLoop_exit_spec (rowL colL : List Nat) (n_rows n_cols : Nat)
    (llr : List ℚ) :
    ∀ (fuel iter : Nat) (st : DecSt),
      ((decodeLoop rowL colL n_rows n_cols llr iter fuel st).2.1 = DecExit.ranOut →
        (decodeLoop rowL colL n_rows n_cols llr iter fuel st).2.2.1 = fuel ∧
        (decodeLoop rowL colL n_rows n_cols llr iter fuel st).2.2.2 = fuel) ∧
      (∀ i, (decodeLoop rowL colL n_rows n_cols llr iter fuel st).2.1 = DecExit.early i →
        iter ≤ i ∧ 1 ≤ i ∧ i < iter + fuel ∧
        (decodeLoop rowL colL n_rows n_cols llr iter fuel st).2.2.1 = i - iter + 1 ∧
        (decodeLoop rowL colL n_rows n_cols llr iter fuel st).2.2.2 = i - iter ∧
        (decodeLoop rowL colL n_rows n_cols llr iter fuel st).1.is_codeword = some true) := by
  intro fuel
  induction fuel with
  | zero => intro iter st; simp [decodeLoop]
  | succ m ih =>
    intro iter st
    by_cases hbr : 0 < iter ∧ (checkNodePass rowL st.bit_message n_rows).check_sign.all (· = false)
    · have hEqP : decodeLoop rowL colL n_rows n_cols llr iter (m + 1) st =
          ({ st with is_codeword := some ((checkNodePass rowL st.bit_message n_rows).check_sign.all
              (· = false)) }, DecExit.early iter, 1, 0) := by
        rw [decodeLoop]; rw [if_pos hbr]
      rw [hEqP]
      constructor
      · intro h; exact absurd h (by simp)
      · intro i hi
        simp only [DecExit.early.injEq] at hi
        subst hi
        refine ⟨le_refl iter, hbr.1, by omega, by dsimp only; omega,
          by dsimp only; omega, by dsimp only; rw [hbr.2]⟩
    · have hEq : decodeLoop rowL colL n_rows n_cols llr iter (m + 1) st =
          ((decodeLoop rowL colL n_rows n_cols llr (iter + 1) m
            { bit_message := (varNodePass colL llr n_cols
                (checkMessages rowL st.bit_message
                  (checkNodePass rowL st.bit_message n_rows))).2,
              bit_accum := (varNodePass colL llr n_cols
                (checkMessages rowL st.bit_message
                  (checkNodePass rowL st.bit_message n_rows))).1,
              is_codeword := some ((checkNodePass rowL st.bit_message n_rows).check_sign.all
                (· = false)) }).1,
           (decodeLoop rowL colL n_rows n_cols llr (iter + 1) m
            { bit_message := (varNodePass colL llr n_cols
                (checkMessages rowL st.bit_message
                  (checkNodePass rowL st.bit_message n_rows))).2,
              bit_accum := (varNodePass colL llr n_cols
                (checkMessages rowL st.bit_message
                  (checkNodePass rowL st.bit_message n_rows))).1,
              is_codeword := some ((checkNodePass rowL st.bit_message n_rows).check_sign.all
                (· = false)) }).2.1,
           (decodeLoop rowL colL n_rows n_cols llr (iter + 1) m
            { bit_message := (varNodePass colL llr n_cols
                (checkMessages rowL st.bit_message
                  (checkNodePass rowL st.bit_message n_rows))).2,
              bit_accum := (varNodePass colL llr n_cols
                (checkMessages rowL st.bit_message
                  (checkNodePass rowL st.bit_message n_rows))).1,
              is_codeword := some ((checkNodePass rowL st.bit_message n_rows).check_sign.all
                (· = false)) }).2.2.1 + 1,
           (decodeLoop rowL colL n_rows n_cols llr (iter + 1) m
            { bit_message := (varNodePass colL llr n_cols
                (checkMessages rowL st.bit_message
                  (checkNodePass rowL st.bit_message n_rows))).2,
              bit_accum := (varNodePass colL llr n_cols
                (checkMessages rowL st.bit_message
                  (checkNodePass rowL st.bit_message n_rows))).1,
              is_codeword := some ((checkNodePass rowL st.bit_message n_rows).check_sign.all
                (· = false)) }).2.2.2 + 1) := by
        rw [decodeLoop]; rw [if_neg hbr]
      obtain ⟨hro, hre⟩ := ih (iter + 1)
        { bit_message := (varNodePass colL llr n_cols
            (checkMessages rowL st.bit_message
              (checkNodePass rowL st.bit_message n_rows))).2,
          bit_accum := (varNodePass colL llr n_cols
            (checkMessages rowL st.bit_message
              (checkNodePass rowL st.bit_message n_rows))).1,
          is_codeword := some ((checkNodePass rowL st.bit_message n_rows).check_sign.all
            (· = false)) }
      rw [hEq]
      constructor
      · intro h
        dsimp only at h
        obtain ⟨h1, h2⟩ := hro h
        dsimp only
        omega
      · intro i hi
        dsimp only at hi
        obtain ⟨g1, g2, g3, g4, g5, g6⟩ := hre i hi
        dsimp only
        refine ⟨by omega, g2, by omega, by omega, by omega, g6⟩

/-- C6: the decoder never exits its iteration loop early during iteration 0:
an early exit happens only at an iteration `i ≥ 1` in which the termination
test passed after the check-node update (the satisfaction flag was assigned
`true`), and in that case the variable-node update of iteration `i` is not
performed (`i + 1` check-node updates but only `i` variable-node updates ran);
otherwise all `n_iter` iterations perform both updates. -/
theorem decode_early_exit_only_after_first_iter (rowL colL : List Nat)
    (n_rows n_cols : Nat) (llr : List ℚ) (n_iter : Nat) :
    ((ldpc.decodeInstr rowL colL n_rows n_cols llr n_iter).2.1 = DecExit.ranOut →
      (ldpc.decodeInstr rowL colL n_rows n_cols llr n_iter).2.2.1 = n_iter ∧
      (ldpc.decodeInstr rowL colL n_rows n_cols llr n_iter).2.2.2 = n_iter) ∧
    (∀ i, (ldpc.decodeInstr rowL colL n_rows n_cols llr n_iter).2.1 = DecExit.early i →
      1 ≤ i ∧ i < n_iter ∧
      (ldpc.decodeInstr rowL colL n_rows n_cols llr n_iter).2.2.1 = i + 1 ∧
      (ldpc.decodeInstr rowL colL n_rows n_cols llr n_iter).2.2.2 = i ∧
      (ldpc.decodeInstr rowL colL n_rows n_cols llr n_iter).1.is_codeword = some true) := by
  have hD : ldpc.decodeInstr rowL colL n_rows n_cols llr n_iter =
      decodeLoop rowL colL n_rows n_cols llr 0 n_iter
        ⟨colL.map fun c => llr.getD c 0, List.replicate n_cols 0, none⟩ := rfl
  rw [hD]
  obtain ⟨hro, hre⟩ := decodeLoop_exit_spec rowL colL n_rows n_cols llr n_iter 0
    ⟨colL.map fun c => llr.getD c 0, List.replicate n_cols 0, none⟩
  refine ⟨fun h => hro h, fun i hi => ?_⟩
  obtain ⟨g1, g2, g3, g4, g5, g6⟩ := hre i hi
  exact ⟨g2, by omega, by omega, by omega, g6⟩

unseal Rat.inv Rat.mul Rat.add Rat.sub Rat.ofScientific in
/-- Witness for C6 at a concrete run: the degree-2 single-check code with
`llr_in = [2, 3]` satisfies all checks already, so the loop breaks at
iteration 1 (not 0), after 2 check-node and 1 variable-node updates. -/
theorem decode_early_exit_only_after_first_iter_witness :
    1 ≤ 1 ∧ 1 < 5 ∧
    (ldpc.decodeInstr [0, 0] [0, 1] 1 2 [2, 3] 5).2.2.1 = 1 + 1 ∧
    (ldpc.decodeInstr [0, 0] [0, 1] 1 2 [2, 3] 5).2.2.2 = 1 ∧
    (ldpc.decodeInstr [0, 0] [0, 1] 1 2 [2, 3] 5).1.is_codeword = some true :=
  (decode_early_exit_only_after_first_iter [0, 0] [0, 1] 1 2 [2, 3] 5).2 1 (by decide)

/-- C5 counterexample: with `n_iter = 0` on the single-check code with
`llr_in = [2, 3]`, `decode` writes zeros to `llr_out` — not the (clamped)
input posterior, which would be `[2, 3]` — and returns the `is_codeword`
flag uninitialised (`none`), not the claimed `0`. -/
theorem decode_zero_iter_cx :
    (ldpc.decode [0, 0] [0, 1] 1 2 [2, 3] 0).1 ≠ [2, 3] ∧
    (ldpc.decode [0, 0] [0, 1] 1 2 [2, 3] 0).2 = none := by decide

/-- C5 amended: with `n_iter = 0` the iteration loop never runs, so `llr_out`
is the zero-filled `bit_accum` (not the input posterior) and the returned
satisfaction flag is the never-assigned `bool is_codeword` (an indeterminate
value in the C++, modelled `none`). -/
theorem decode_zero_iter_returns_zeros (rowL colL : List Nat)
    (n_rows n_cols : Nat) (llr : List ℚ) :
    ldpc.decode rowL colL n_rows n_cols llr 0 = (List.replicate n_cols 0, none) := rfl

/-- C7: `encode` on a code whose `parity_generator` is empty reports the
`Encoder not created` error (the `cerr` diagnostic, modelled by the `true`
flag) and returns at once: the caller's buffer `cw` is unchanged (and the code
object, which `encode` never writes, trivially so). -/
theorem encode_not_built_leaves_cw (n_rows n_cols : Nat)
    (pg : List (List (ZMod 2))) (info cw : List (ZMod 2)) (h : pg = []) :
    ldpc.encode n_rows n_cols pg info cw = (true, cw) := by
  subst h; rfl

/-- Witness for C7 at a concrete call. -/
theorem encode_not_built_leaves_cw_witness :
    ldpc.encode 2 4 [] [1, 0] [1, 1, 0, 1] = (true, [1, 1, 0, 1]) :=
  encode_not_built_leaves_cw 2 4 [] [1, 0] [1, 1, 0, 1] rfl

/-- C8 counterexample: an object holding one edge keeps it when the open
fails — the edge list is *not* cleared, contradicting the claim that the
object ends up an empty code. -/
theorem read_alist_open_failure_cx :
    ((ldpc.read_alist ⟨1, 1, 1, [0], [0]⟩ none false).1).row ≠ [] := by decide

/-- C8 amended: when the file cannot be opened, `read_alist` reports the
failure and returns before the `row.clear(); col.clear()` lines, so the code
object is left exactly as it was (prior edges intact). -/
theorem read_alist_open_failure_keeps_state (s : ldpc) (zero_pad : Bool) :
    ldpc.read_alist s none zero_pad = (s, true, 0) := rfl

/-- C9 counterexample: on H = [[1,1,0,1],[0,1,1,1]] (the specification's
scenario A), running `create_encoder` twice leaves a different `col[]` array
than running it once — the second run relabels the columns again. -/
theorem create_encoder_idempotent_cx :
    (ldpc.create_encoder 2 4
      (([(0, 0), (0, 1), (0, 3), (1, 1), (1, 2), (1, 3)].zip
        (ldpc.create_encoder 2 4
          [(0, 0), (0, 1), (0, 3), (1, 1), (1, 2), (1, 3)]).col).map
        fun p => (p.1.1, p.2))).col ≠
    (ldpc.create_encoder 2 4
      [(0, 0), (0, 1), (0, 3), (1, 1), (1, 2), (1, 3)]).col := by decide

/-- C9 amended: `create_encoder` is not idempotent on the edge list: a second
run redoes the elimination on the relabeled code and applies its own column
relabeling again.  On H = [[1,1,0,1],[0,1,1,1]] the second run reproduces the
same `parity_generator`, but maps `col[]` back to the original labels
`[0, 1, 3, 1, 2, 3]`, differing from the single run's `[2, 3, 1, 3, 0, 1]`. -/
theorem create_encoder_second_run_relabels :
    (ldpc.create_encoder 2 4
      (([(0, 0), (0, 1), (0, 3), (1, 1), (1, 2), (1, 3)].zip
        (ldpc.create_encoder 2 4
          [(0, 0), (0, 1), (0, 3), (1, 1), (1, 2), (1, 3)]).col).map
        fun p => (p.1.1, p.2))).parity_generator =
    (ldpc.create_encoder 2 4
      [(0, 0), (0, 1), (0, 3), (1, 1), (1, 2), (1, 3)]).parity_generator ∧
    (ldpc.create_encoder 2 4
      (([(0, 0), (0, 1), (0, 3), (1, 1), (1, 2), (1, 3)].zip
        (ldpc.create_encoder 2 4
          [(0, 0), (0, 1), (0, 3), (1, 1), (1, 2), (1, 3)]).col).map
        fun p => (p.1.1, p.2))).col = [0, 1, 3, 1, 2, 3] ∧
    (ldpc.create_encoder 2 4
      [(0, 0), (0, 1), (0, 3), (1, 1), (1, 2), (1, 3)]).col =
      [2, 3, 1, 3, 0, 1] := by decide

/-- C10 counterexample: reading the variable-entry branch (`zero_pad = false`)
accepts the negative 1-based index `-3` (it is nonzero and `≤ n_rows`), storing
the negative row index `-4`. -/
theorem read_alist_negative_index_cx :
    ((ldpc.read_alist ldpc.new (some [1, 2, 1, 1, 1, 1, 1, -3]) false).1).row
      = [-4] ∧ (-4 : Int) < 0 := by decide

/-- The `zero_pad` branch accepts exactly the 1-based indices in `1..n_rows`. -/
theorem acceptEntry_pad_iff (n_rows t : Int) :
    acceptEntry true n_rows t = true ↔ 1 ≤ t ∧ t ≤ n_rows := by
  simp [acceptEntry]

/-- The other branch accepts exactly the nonzero indices `≤ n_rows`. -/
theorem acceptEntry_var_iff (n_rows t : Int) :
    acceptEntry false n_rows t = true ↔ t ≠ 0 ∧ t ≤ n_rows := by
  simp [acceptEntry]

/-- Every edge produced by the inner column loop carries the column index `j`,
a row index `< n_rows`, and (in the `zero_pad` branch) a nonnegative row. -/
theorem readColumn_mem (zp : Bool) (nr j : Int) :
    ∀ (cnt : Nat) (ts : List Int) (e : Int × Int),
      e ∈ (readColumn zp nr j cnt ts).1 →
      e.2 = j ∧ e.1 < nr ∧ (zp = true → 0 ≤ e.1) := by
  intro cnt
  induction cnt with
  | zero => intro ts e h; simp [readColumn] at h
  | succ m ih =>
    intro ts e h
    rw [readColumn] at h
    rcases hrt : readTok ts with ⟨t, ts1⟩
    rw [hrt] at h
    dsimp only at h
    rcases hrc : readColumn zp nr j m ts1 with ⟨es, k, ts2⟩
    rw [hrc] at h
    dsimp only at h
    have ihs : ∀ x ∈ es, x.2 = j ∧ x.1 < nr ∧ (zp = true → 0 ≤ x.1) := by
      intro x hx
      have hh := ih ts1 x
      rw [hrc] at hh
      exact hh hx
    by_cases ha : acceptEntry zp nr t = true
    · rw [if_pos ha] at h
      dsimp only at h
      rcases List.mem_cons.mp h with hfst | hrest
      · subst hfst
        refine ⟨rfl, ?_, ?_⟩
        · cases zp with
          | true => have := (acceptEntry_pad_iff nr t).mp ha; omega
          | false => have := (acceptEntry_var_iff nr t).mp ha; omega
        · intro hz
          subst hz
          have := (acceptEntry_pad_iff nr t).mp ha
          omega
      · exact ihs e hrest
    · rw [if_neg ha] at h
      by_cases hl : logsEntry zp nr t = true
      · rw [if_pos hl] at h; exact ihs e h
      · rw [if_neg hl] at h; exact ihs e h

/-- Every edge produced by the column section loop has a column index in
`[j, j + m)` and a row index `< n_rows` (nonnegative in the `zero_pad`
branch). -/
theorem readCols_mem (zp : Bool) (nr : Int) (cws : List Int) (mcw : Int) :
    ∀ (m j : Nat) (ts : List Int) (e : Int × Int),
      e ∈ (readCols zp nr cws mcw j m ts).1 →
      (∃ j2 : Nat, j ≤ j2 ∧ j2 < j + m ∧ e.2 = (j2 : Int)) ∧
      e.1 < nr ∧ (zp = true → 0 ≤ e.1) := by
  intro m
  induction m with
  | zero => intro j ts e h; simp [readCols] at h
  | succ m ih =>
    intro j ts e h
    rw [readCols] at h
    rcases List.mem_append.mp h with hleft | hright
    · obtain ⟨h1, h2, h3⟩ := readColumn_mem zp nr (j : Int) _ ts e hleft
      exact ⟨⟨j, le_refl j, by omega, h1⟩, h2, h3⟩
    · obtain ⟨⟨j2, g1, g2, g3⟩, g4, g5⟩ := ih (j + 1) _ e hright
      exact ⟨⟨j2, by omega, by omega, g3⟩, g4, g5⟩

/-- C10 amended: after a successful `read_alist`, every stored edge satisfies
`row[e] < n_rows` and `0 ≤ col[e] < n_cols`; the lower bound `0 ≤ row[e]`
holds in the `zero_pad = true` branch, but in the other branch a negative
1-based index in the file is accepted and stored as a negative row index. -/
theorem read_alist_index_bounds (s : ldpc) (ts : List Int) (zero_pad : Bool) :
    (∀ x ∈ ((ldpc.read_alist s (some ts) zero_pad).1).row,
        x < ((ldpc.read_alist s (some ts) zero_pad).1).n_rows ∧
        (zero_pad = true → 0 ≤ x)) ∧
    (∀ x ∈ ((ldpc.read_alist s (some ts) zero_pad).1).col,
        0 ≤ x ∧ x < ((ldpc.read_alist s (some ts) zero_pad).1).n_cols) := by
  rcases hph : parseHeader ts with ⟨nc, nr, mcw, mrw, cw, rws, rest⟩
  have hunf : ldpc.read_alist s (some ts) zero_pad =
      ({ n_rows := nr, n_cols := nc,
         n_edges := ((readCols zero_pad nr cw mcw 0 nc.toNat rest).1.length : Int),
         row := (readCols zero_pad nr cw mcw 0 nc.toNat rest).1.map (·.1),
         col := (readCols zero_pad nr cw mcw 0 nc.toNat rest).1.map (·.2) }, false,
        (readCols zero_pad nr cw mcw 0 nc.toNat rest).2.1) := by
    rw [ldpc.read_alist, hph]
  rw [hunf]
  constructor
  · intro x hx
    dsimp only at hx
    obtain ⟨e, he, hex⟩ := List.mem_map.mp hx
    obtain ⟨_, h2, h3⟩ := readCols_mem zero_pad nr cw mcw nc.toNat 0 rest e he
    subst hex
    exact ⟨h2, h3⟩
  · intro x hx
    dsimp only at hx
    obtain ⟨e, he, hex⟩ := List.mem_map.mp hx
    obtain ⟨⟨j2, hj1, hj2, hj3⟩, _, _⟩ := readCols_mem zero_pad nr cw mcw nc.toNat 0 rest e he
    subst hex
    rw [hj3]
    refine ⟨Int.natCast_nonneg j2, ?_⟩
    show (j2 : Int) < nc
    omega

/-- Witness for (amended) C10 at a concrete successful read: the single edge
read from the file `1 1 1 1 1 1 1` with `zero_pad = true` has row index `0`
with `0 < n_rows` and `0 ≤ 0`. -/
theorem read_alist_index_bounds_witness :
    ((0 : Int) < ((ldpc.read_alist ldpc.new (some [1, 1, 1, 1, 1, 1, 1]) true).1).n_rows ∧
      (0 : Int) ≤ 0) ∧
    ((0 : Int) ≤ 0 ∧
      (0 : Int) < ((ldpc.read_alist ldpc.new (some [1, 1, 1, 1, 1, 1, 1]) true).1).n_cols) := by
  have h := read_alist_index_bounds ldpc.new [1, 1, 1, 1, 1, 1, 1] true
  have h1 := h.1 0 (by decide)
  have h2 := h.2 0 (by decide)
  exact ⟨⟨h1.1, h1.2 rfl⟩, h2⟩

/-- The `zero_pad` acceptance test decides the spec-side predicate. -/
theorem acceptEntry_true_decide (nr t : Int) :
    acceptEntry true nr t = decide (variableKeep nr t) := by
  simp [acceptEntry, variableKeep]

/-- The other branch's acceptance test decides the spec-side predicate. -/
theorem acceptEntry_false_decide (nr t : Int) :
    acceptEntry false nr t = decide (paddedKeep nr t) := by
  simp [acceptEntry, paddedKeep]

/-- The `zero_pad` branch logs exactly the rejected entries. -/
theorem logsEntry_true_decide (nr t : Int) :
    logsEntry true nr t = decide (variableLogs nr t) := by
  by_cases h1 : 1 ≤ t <;> by_cases h2 : t ≤ nr <;>
    simp [logsEntry, acceptEntry, variableLogs, variableKeep, h1, h2]

/-- The other branch logs exactly the nonzero entries above `n_rows`. -/
theorem logsEntry_false_decide (nr t : Int) :
    logsEntry false nr t = decide (paddedLogs nr t) := by
  by_cases h0 : t = 0 <;> by_cases h1 : t ≤ nr <;>
    simp [logsEntry, acceptEntry, paddedLogs, h0, h1] <;> omega

/-- One column of `read_alist` equals its spec-side reading: take the chunk of
`cnt` tokens, keep the accepted entries as edges, count the logged ones. -/
theorem readColumn_char (zp : Bool) (nr j : Int) (keep logp : Int → Int → Prop)
    [∀ a b, Decidable (keep a b)] [∀ a b, Decidable (logp a b)]
    (hk : ∀ t, acceptEntry zp nr t = decide (keep nr t))
    (hl : ∀ t, logsEntry zp nr t = decide (logp nr t))
    (hdisj : ∀ t, keep nr t → ¬ logp nr t) :
    ∀ (cnt : Nat) (ts : List Int),
      readColumn zp nr j cnt ts =
        (chunkEdges (keep nr) j (readToks cnt ts).1,
         ((readToks cnt ts).1.filter fun t => decide (logp nr t)).length,
         (readToks cnt ts).2) := by
  intro cnt
  induction cnt with
  | zero => intro ts; simp [readColumn, readToks, chunkEdges]
  | succ m ih =>
    intro ts
    rw [readColumn, readToks]
    rcases hrt : readTok ts with ⟨t, ts1⟩
    dsimp only
    rw [ih ts1]
    rcases hts : readToks m ts1 with ⟨chunk, rest⟩
    dsimp only
    by_cases hkt : keep nr t
    · rw [if_pos (by rw [hk t]; exact decide_eq_true hkt)]
      have hnl : ¬ logp nr t := hdisj t hkt
      simp [chunkEdges, hkt, hnl]
    · rw [if_neg (by rw [hk t]; simpa using hkt)]
      by_cases hlt : logp nr t
      · rw [if_pos (by rw [hl t]; exact decide_eq_true hlt)]
        simp [chunkEdges, hkt, hlt]
      · rw [if_neg (by rw [hl t]; simpa using hlt)]
        simp [chunkEdges, hkt, hlt]

/-- `readToks` always delivers exactly `n` tokens (zeros once exhausted). -/
theorem readToks_length : ∀ (n : Nat) (ts : List Int), (readToks n ts).1.length = n := by
  intro n
  induction n with
  | zero => intro ts; rfl
  | succ m ih =>
    intro ts
    rw [readToks]
    rcases readTok ts with ⟨t, ts1⟩
    dsimp only
    rcases hts : readToks m ts1 with ⟨xs, rest⟩
    have := ih ts1
    rw [hts] at this
    simpa using this

/-- The `zero_pad = true` branch reads, for every column, exactly its
`col_weights` entry's worth of tokens: the whole section is the chunked,
filtered spec-side reading. -/
theorem readCols_char_true (nr : Int) (cws : List Int) (mcw : Int) :
    ∀ (m j : Nat) (ts : List Int),
      readCols true nr cws mcw j m ts =
        (sectionEdges variableKeep nr j
           (chunksOf ((List.range' j m).map fun i => (cws.getD i 0).toNat) ts),
         sectionLogCount variableLogs nr
           (chunksOf ((List.range' j m).map fun i => (cws.getD i 0).toNat) ts),
         dropToks ((List.range' j m).map fun i => (cws.getD i 0).toNat) ts) := by
  intro m
  induction m with
  | zero => intro j ts; simp [readCols, List.range', chunksOf, sectionEdges,
      sectionLogCount, dropToks]
  | succ m ih =>
    intro j ts
    rw [readCols]
    rw [readColumn_char true nr (j : Int) variableKeep variableLogs
      (acceptEntry_true_decide nr) (logsEntry_true_decide nr)
      (by intro t hk hl; exact hl hk)]
    rw [if_pos rfl]
    dsimp only
    rw [ih (j + 1) (readToks (cws.getD j 0).toNat ts).2]
    simp [List.range', chunksOf, sectionEdges, sectionLogCount, dropToks]

/-- The `zero_pad = false` branch reads `max_col_weight` tokens for every
column: the whole section is the chunked, filtered spec-side reading with
uniform chunk size. -/
theorem readCols_char_false (nr : Int) (cws : List Int) (mcw : Int) :
    ∀ (m j : Nat) (ts : List Int),
      readCols false nr cws mcw j m ts =
        (sectionEdges paddedKeep nr j (chunksOf (List.replicate m mcw.toNat) ts),
         sectionLogCount paddedLogs nr (chunksOf (List.replicate m mcw.toNat) ts),
         dropToks (List.replicate m mcw.toNat) ts) := by
  intro m
  induction m with
  | zero => intro j ts; simp [readCols, chunksOf, sectionEdges,
      sectionLogCount, dropToks]
  | succ m ih =>
    intro j ts
    rw [readCols]
    rw [readColumn_char false nr (j : Int) paddedKeep paddedLogs
      (acceptEntry_false_decide nr) (logsEntry_false_decide nr)
      (by intro t hk hl; unfold paddedKeep at hk; unfold paddedLogs at hl; omega)]
    rw [if_neg (by simp)]
    dsimp only
    rw [ih (j + 1) (readToks mcw.toNat ts).2]
    simp [List.replicate, chunksOf, sectionEdges, sectionLogCount, dropToks]

/-- Per-column sizes drawn from `col_weights` by index agree with mapping over
the weight list itself. -/
theorem range'_getD_toNat (cws : List Int) :
    ∀ (m j : Nat), cws.length = j + m →
      ((List.range' j m).map fun i => (cws.getD i 0).toNat) =
        (cws.drop j).map Int.toNat := by
  intro m
  induction m with
  | zero =>
    intro j h
    rw [List.drop_eq_nil_of_le (by omega)]
    simp [List.range']
  | succ m ih =>
    intro j h
    have hj : j < cws.length := by omega
    rw [List.drop_eq_getElem_cons hj]
    simp only [List.range', List.map_cons]
    rw [ih (j + 1) (by omega)]
    rw [List.getD_eq_getElem cws 0 hj]

/-- The weight vectors delivered by the header parse have exactly `n_cols`
and `n_rows` entries. -/
theorem parseHeader_lengths (ts : List Int) (nc nr mcw mrw : Int)
    (cw rws rest : List Int)
    (h : parseHeader ts = (nc, nr, mcw, mrw, cw, rws, rest)) :
    cw.length = nc.toNat ∧ rws.length = nr.toNat := by
  rw [parseHeader] at h
  rcases h1 : readTok ts with ⟨a, ts1⟩
  rw [h1] at h; dsimp only at h
  rcases h2 : readTok ts1 with ⟨b, ts2⟩
  rw [h2] at h; dsimp only at h
  rcases h3 : readTok ts2 with ⟨c, ts3⟩
  rw [h3] at h; dsimp only at h
  rcases h4 : readTok ts3 with ⟨d, ts4⟩
  rw [h4] at h; dsimp only at h
  rcases h5 : readToks a.toNat ts4 with ⟨cw1, ts5⟩
  rw [h5] at h; dsimp only at h
  rcases h6 : readToks b.toNat ts5 with ⟨rw1, ts6⟩
  rw [h6] at h; dsimp only at h
  simp only [Prod.mk.injEq] at h
  obtain ⟨e1, e2, _, _, e5, e6, _⟩ := h
  subst e1; subst e2; subst e5; subst e6
  constructor
  · have := readToks_length a.toNat ts4
    rw [h5] at this; exact this
  · have := readToks_length b.toNat ts5
    rw [h6] at this; exact this

/-- C3 amended: the two `read_alist` variants are selected the other way
around from the claim.  With `zero_pad = true` exactly `col_weights[j]`
entries are read for each column `j`, an entry is kept iff it lies in
`1..n_rows`, and every rejected entry is logged; with `zero_pad = false`,
`max_col_weight` entries are read for each column, a `0` entry is skipped
silently without terminating the column, any nonzero entry `≤ n_rows` —
negative ones included — is kept, and only nonzero entries `> n_rows` are
logged. -/
theorem read_alist_branch_characterisation (s : ldpc) (ts : List Int)
    (nc nr mcw mrw : Int) (cw rws rest : List Int)
    (h : parseHeader ts = (nc, nr, mcw, mrw, cw, rws, rest)) :
    (((ldpc.read_alist s (some ts) true).1).row.zip
        ((ldpc.read_alist s (some ts) true).1).col =
      sectionEdges variableKeep nr 0 (chunksOf (cw.map Int.toNat) rest) ∧
     (ldpc.read_alist s (some ts) true).2.2 =
      sectionLogCount variableLogs nr (chunksOf (cw.map Int.toNat) rest)) ∧
    (((ldpc.read_alist s (some ts) false).1).row.zip
        ((ldpc.read_alist s (some ts) false).1).col =
      sectionEdges paddedKeep nr 0
        (chunksOf (List.replicate nc.toNat mcw.toNat) rest) ∧
     (ldpc.read_alist s (some ts) false).2.2 =
      sectionLogCount paddedLogs nr
        (chunksOf (List.replicate nc.toNat mcw.toNat) rest)) := by
  have hcwlen : cw.length = nc.toNat := (parseHeader_lengths ts nc nr mcw mrw cw rws rest h).1
  have hsizes : ((List.range' 0 nc.toNat).map fun i => (cw.getD i 0).toNat) =
      cw.map Int.toNat := by
    rw [range'_getD_toNat cw nc.toNat 0 (by omega)]
    rw [List.drop_zero]
  constructor
  · have hunf : ldpc.read_alist s (some ts) true =
        ({ n_rows := nr, n_cols := nc,
           n_edges := ((readCols true nr cw mcw 0 nc.toNat rest).1.length : Int),
           row := (readCols true nr cw mcw 0 nc.toNat rest).1.map (·.1),
           col := (readCols true nr cw mcw 0 nc.toNat rest).1.map (·.2) }, false,
          (readCols true nr cw mcw 0 nc.toNat rest).2.1) := by
      rw [ldpc.read_alist, h]
    rw [hunf]
    rw [readCols_char_true nr cw mcw nc.toNat 0 rest]
    rw [hsizes]
    constructor
    · dsimp only
      rw [List.zip_map']
      simp
    · rfl
  · have hunf : ldpc.read_alist s (some ts) false =
        ({ n_rows := nr, n_cols := nc,
           n_edges := ((readCols false nr cw mcw 0 nc.toNat rest).1.length : Int),
           row := (readCols false nr cw mcw 0 nc.toNat rest).1.map (·.1),
           col := (readCols false nr cw mcw 0 nc.toNat rest).1.map (·.2) }, false,
          (readCols false nr cw mcw 0 nc.toNat rest).2.1) := by
      rw [ldpc.read_alist, h]
    rw [hunf]
    rw [readCols_char_false nr cw mcw nc.toNat 0 rest]
    constructor
    · dsimp only
      rw [List.zip_map']
      simp
    · rfl

/-- Witness for (amended) C3 on the file `1 1 1 1 1 1 1`: one column of weight
1 whose single entry `1` is accepted by both branches. -/
theorem read_alist_branch_characterisation_witness :
    (((ldpc.read_alist ldpc.new (some [1, 1, 1, 1, 1, 1, 1]) true).1).row.zip
        ((ldpc.read_alist ldpc.new (some [1, 1, 1, 1, 1, 1, 1]) true).1).col =
      sectionEdges variableKeep 1 0 (chunksOf ([(1 : Int)].map Int.toNat) [1]) ∧
     (ldpc.read_alist ldpc.new (some [1, 1, 1, 1, 1, 1, 1]) true).2.2 =
      sectionLogCount variableLogs 1 (chunksOf ([(1 : Int)].map Int.toNat) [1])) ∧
    (((ldpc.read_alist ldpc.new (some [1, 1, 1, 1, 1, 1, 1]) false).1).row.zip
        ((ldpc.read_alist ldpc.new (some [1, 1, 1, 1, 1, 1, 1]) false).1).col =
      sectionEdges paddedKeep 1 0
        (chunksOf (List.replicate (1 : Int).toNat (1 : Int).toNat) [1]) ∧
     (ldpc.read_alist ldpc.new (some [1, 1, 1, 1, 1, 1, 1]) false).2.2 =
      sectionLogCount paddedLogs 1
        (chunksOf (List.replicate (1 : Int).toNat (1 : Int).toNat) [1])) :=
  read_alist_branch_characterisation ldpc.new [1, 1, 1, 1, 1, 1, 1]
    1 1 1 1 [1] [1] [1] rfl

/-- C3 counterexample: on the zero-padded file below (2 columns, weights 1,
`max_col_weight = 2`, column lists `1 0` and `2 0`) the code's `zero_pad =
true` reading consumes only `col_weights[j]` entries per column — it reads the
padding `0` as column 1's entry and rejects it — producing the single edge
`(0,0)` with one logged error, while the claim's zero-padded semantics
(`max_col_weight` entries per column, `0` terminating) yields the two edges
`(0,0)` and `(1,1)`. -/
theorem read_alist_variant_swap_cx :
    ((ldpc.read_alist ldpc.new (some [2, 2, 2, 1, 1, 1, 1, 1, 1, 0, 2, 0]) true).1).row
      = [0] ∧
    ((ldpc.read_alist ldpc.new (some [2, 2, 2, 1, 1, 1, 1, 1, 1, 0, 2, 0]) true).1).col
      = [0] ∧
    (ldpc.read_alist ldpc.new (some [2, 2, 2, 1, 1, 1, 1, 1, 1, 0, 2, 0]) true).2.2 = 1 ∧
    read_alist_claimZeroPad [2, 2, 2, 1, 1, 1, 1, 1, 1, 0, 2, 0] = [(0, 0), (1, 1)] ∧
    ((ldpc.read_alist ldpc.new (some [2, 2, 2, 1, 1, 1, 1, 1, 1, 0, 2, 0]) true).1).row.zip
        ((ldpc.read_alist ldpc.new (some [2, 2, 2, 1, 1, 1, 1, 1, 1, 0, 2, 0]) true).1).col
      ≠ read_alist_claimZeroPad [2, 2, 2, 1, 1, 1, 1, 1, 1, 0, 2, 0] := by decide

/-- Emitting a singleton per matching element is a filter-then-map. -/
theorem flatMap_ite_singleton {α β : Type} (l : List α) (P : α → Prop)
    [DecidablePred P] (f : α → β) :
    (l.flatMap fun e => if P e then [f e] else []) =
      (l.filter fun e => decide (P e)).map f := by
  induction l with
  | nil => rfl
  | cons a t ih => by_cases h : P a <;> simp [h, ih]

/-- Reading back exactly the tokens that were written. -/
theorem readToks_append : ∀ (xs rest : List Int),
    readToks xs.length (xs ++ rest) = (xs, rest) := by
  intro xs
  induction xs with
  | nil => intro rest; rfl
  | cons x t ih =>
    intro rest
    rw [List.length_cons, readToks]
    simp only [List.cons_append, readTok]
    rw [ih rest]

/-- Splitting a flattened list of equal-sized chunks recovers the chunks. -/
theorem chunksOf_flatten_replicate (w : Nat) :
    ∀ (chs : List (List Int)) (tail : List Int),
      (∀ ch ∈ chs, ch.length = w) →
      chunksOf (List.replicate chs.length w) (chs.flatten ++ tail) = chs := by
  intro chs
  induction chs with
  | nil => intro tail _; rfl
  | cons ch t ih =>
    intro tail hlen
    rw [List.length_cons, List.replicate_succ, chunksOf]
    have hch : ch.length = w := hlen ch (List.mem_cons_self ch t)
    have hsplit : readToks w (List.flatten (ch :: t) ++ tail) =
        (ch, t.flatten ++ tail) := by
      rw [List.flatten_cons, List.append_assoc, ← hch]
      exact readToks_append ch (t.flatten ++ tail)
    rw [hsplit]
    rw [ih tail fun c hc => hlen c (List.mem_cons_of_mem ch hc)]

/-- Sorting is invariant under permutation of the input (the lexicographic
edge order is total, transitive and antisymmetric). -/
theorem insertionSort_eq_of_perm (l1 l2 : List (Int × Int))
    (h : List.Perm l1 l2) :
    List.insertionSort edgeLE l1 = List.insertionSort edgeLE l2 :=
  List.eq_of_perm_of_sorted
    ((List.perm_insertionSort edgeLE l1).trans
      (h.trans (List.perm_insertionSort edgeLE l2).symm))
    (List.sorted_insertionSort edgeLE l1)
    (List.sorted_insertionSort edgeLE l2)

/-- Members of a stub list are the (casts of the) indices below `r`. -/
theorem stubs_mem (r : Nat) (d : List Int) (x : Int) (h : x ∈ stubs r d) :
    ∃ i : Nat, i < r ∧ x = (i : Int) := by
  simp only [stubs, List.mem_flatMap, List.mem_range] at h
  obtain ⟨i, hi, hmem⟩ := h
  exact ⟨i, hi, (List.eq_of_mem_replicate hmem)⟩

/-- Filtering for one value counts its occurrences. -/
theorem filter_eq_length_count (l : List Int) (j : Int) :
    (l.filter (· = j)).length = l.count j := by
  rw [List.count, List.countP_eq_length_filter]
  rfl

/-- Columns other than `e`'s own ignore a prepended edge `e`. -/
theorem flatMap_filter_cons_notin (e : Int × Int) (t : List (Int × Int)) :
    ∀ (js : List Nat), e.2 ∉ js.map (fun i : Nat => (i : Int)) →
      (js.flatMap fun i => (e :: t).filter fun x => decide (x.2 = (i : Int))) =
      (js.flatMap fun i => t.filter fun x => decide (x.2 = (i : Int))) := by
  intro js
  induction js with
  | nil => intro _; rfl
  | cons i rest ih =>
    intro hnot
    rw [List.map_cons] at hnot
    have hne : ¬ e.2 = (i : Int) := fun hh => hnot (List.mem_cons.mpr (Or.inl hh))
    rw [List.flatMap_cons, List.flatMap_cons]
    rw [List.filter_cons, if_neg (by simpa using hne)]
    rw [ih fun hh => hnot (List.mem_cons.mpr (Or.inr hh))]

/-- Prepending an edge whose column occurs (once) among the scanned columns
adds exactly that edge to the reassembled per-column decomposition. -/
theorem flatMap_filter_cons_perm (e : Int × Int) (t : List (Int × Int)) :
    ∀ (js : List Nat), js.Nodup → e.2 ∈ js.map (fun i : Nat => (i : Int)) →
      List.Perm (js.flatMap fun i => (e :: t).filter fun x => decide (x.2 = (i : Int)))
        (e :: js.flatMap fun i => t.filter fun x => decide (x.2 = (i : Int))) := by
  intro js
  induction js with
  | nil => intro _ hmem; simp at hmem
  | cons i rest ih =>
    intro hnd hmem
    rw [List.flatMap_cons, List.flatMap_cons, List.filter_cons]
    by_cases hei : e.2 = (i : Int)
    · rw [if_pos (by simpa using hei)]
      have hnotin : e.2 ∉ rest.map (fun i : Nat => (i : Int)) := by
        rw [hei]
        intro hh
        obtain ⟨b, hb1, hb2⟩ := List.mem_map.mp hh
        have hbi : b = i := by exact_mod_cast hb2
        exact (List.nodup_cons.mp hnd).1 (hbi ▸ hb1)
      rw [flatMap_filter_cons_notin e t rest hnotin]
      exact List.Perm.refl _
    · rw [if_neg (by simpa using hei)]
      have hmem2 : e.2 ∈ rest.map (fun i : Nat => (i : Int)) := by
        rw [List.map_cons] at hmem
        rcases List.mem_cons.mp hmem with hh | hh
        · exact absurd hh hei
        · exact hh
      refine ((ih (List.nodup_cons.mp hnd).2 hmem2).append_left _).trans ?_
      exact List.perm_middle

/-- The per-column filters of an edge list with in-range columns reassemble a
permutation of the list. -/
theorem flatMap_filter_perm (c : Nat) :
    ∀ (l : List (Int × Int)), (∀ e ∈ l, 0 ≤ e.2 ∧ e.2 < (c : Int)) →
      List.Perm ((List.range c).flatMap fun i => l.filter fun e => decide (e.2 = (i : Int))) l := by
  intro l
  induction l with
  | nil =>
    intro _
    have : ((List.range c).flatMap fun i =>
        ([] : List (Int × Int)).filter fun e => decide (e.2 = (i : Int))) = [] := by
      simp
    rw [this]
  | cons e t ih =>
    intro hb
    have hmem : e.2 ∈ (List.range c).map (fun i : Nat => (i : Int)) := by
      obtain ⟨h0, hc⟩ := hb e (List.mem_cons_self e t)
      refine List.mem_map.mpr ⟨e.2.toNat, ?_, ?_⟩
      · rw [List.mem_range]; omega
      · omega
    refine (flatMap_filter_cons_perm e t (List.range c) (List.nodup_range c) hmem).trans ?_
    exact (ih fun x hx => hb x (List.mem_cons_of_mem e hx)).cons e

/-- `max_element` over a constant positive-length weight vector. -/
theorem maxWeight_replicate (w : Int) (hw : 0 ≤ w) :
    ∀ n : Nat, 1 ≤ n → maxWeight (List.replicate n w) = w := by
  intro n
  induction n with
  | zero => intro h; omega
  | succ m ih =>
    intro _
    rw [List.replicate_succ, maxWeight, List.foldr_cons]
    by_cases hm : 1 ≤ m
    · rw [show List.foldr max 0 (List.replicate m w) = maxWeight (List.replicate m w) from rfl]
      rw [ih hm]
      omega
    · have hm0 : m = 0 := by omega
      subst hm0
      show max w 0 = w
      omega

/-- Filtering one value out of a union of constant blocks: only the matching
block contributes. -/
theorem filter_flatMap_replicate (w : Nat) (j : Int) :
    ∀ (js : List Nat), js.Nodup →
      ((js.flatMap fun i => List.replicate w ((i : Nat) : Int)).filter (· = j)).length
        = if j ∈ js.map (fun i : Nat => (i : Int)) then w else 0 := by
  intro js
  induction js with
  | nil => intro _; simp
  | cons i rest ih =>
    intro hnd
    rw [List.flatMap_cons, List.filter_append, List.length_append]
    rw [ih (List.nodup_cons.mp hnd).2]
    have hfr : ((List.replicate w ((i : Nat) : Int)).filter (· = j)).length =
        if j = (i : Int) then w else 0 := by
      by_cases hij : j = (i : Int)
      · rw [if_pos hij]
        rw [List.filter_eq_self.mpr (by intro x hx; simp [List.eq_of_mem_replicate hx, hij])]
        exact List.length_replicate w _
      · rw [if_neg hij]
        rw [show (List.replicate w ((i : Nat) : Int)).filter (· = j) = [] by
          rw [List.filter_eq_nil_iff]
          intro a ha hd
          have haj : a = (i : Int) := List.eq_of_mem_replicate ha
          have haj2 : a = j := by simpa using hd
          exact hij (by omega)]
        rfl
    rw [hfr]
    by_cases hij : j = (i : Int)
    · have hnotin : j ∉ rest.map (fun i : Nat => (i : Int)) := by
        rw [hij]
        intro hh
        obtain ⟨b, hb1, hb2⟩ := List.mem_map.mp hh
        have hbi : b = i := by exact_mod_cast hb2
        exact (List.nodup_cons.mp hnd).1 (hbi ▸ hb1)
      have hmemc : j ∈ (i :: rest).map (fun i : Nat => (i : Int)) := by
        rw [List.map_cons]
        exact List.mem_cons.mpr (Or.inl hij)
      rw [if_pos hij, if_neg hnotin, if_pos hmemc, Nat.add_zero]
    · rw [if_neg hij]
      by_cases hm2 : j ∈ rest.map (fun i : Nat => (i : Int))
      · rw [if_pos hm2, if_pos (by rw [List.map_cons]; exact List.mem_cons.mpr (Or.inr hm2))]
        omega
      · rw [if_neg hm2, if_neg (by
          rw [List.map_cons]
          intro hh
          rcases List.mem_cons.mp hh with h1 | h1
          · exact hij h1
          · exact hm2 h1)]

/-- The stub list of a constant degree sequence is the constant-block union. -/
theorem stubs_replicate (c w : Nat) :
    stubs c (List.replicate c (w : Int)) =
      (List.range c).flatMap fun i => List.replicate w ((i : Nat) : Int) := by
  unfold stubs
  show ((List.range c).map _).flatten = ((List.range c).map _).flatten
  refine congrArg List.flatten (List.map_congr_left ?_)
  intro i hi
  rw [List.mem_range] at hi
  have hg : (List.replicate c (w : Int)).getD i 0 = (w : Int) := by
    rw [List.getD_eq_getElem _ _ (by simpa using hi)]
    simp
  rw [hg, Int.toNat_natCast]

/-- Filtering a zipped edge list on its column component counts like
filtering the column list itself. -/
theorem zip_filter_col_length (j : Int) :
    ∀ (l1 l2 : List Int), l1.length = l2.length →
      ((l1.zip l2).filter fun e => decide (e.2 = j)).length =
        (l2.filter (· = j)).length := by
  intro l1
  induction l1 with
  | nil =>
    intro l2 h
    have : l2 = [] := List.eq_nil_of_length_eq_zero h.symm
    subst this
    rfl
  | cons a t ih =>
    intro l2 h
    cases l2 with
    | nil => simp at h
    | cons b t2 =>
      rw [List.zip_cons_cons, List.filter_cons, List.filter_cons]
      by_cases hb : b = j
      · rw [if_pos (by simpa using hb), if_pos (by simpa using hb)]
        simp only [List.length_cons]
        rw [ih t2 (by simpa using h)]
      · rw [if_neg (by simpa using hb), if_neg (by simpa using hb)]
        exact ih t2 (by simpa using h)

/-- The column section written with `zero_pad = false` is the flattened list
of per-column 1-based row lists. -/
theorem colSectionToks_false (s : ldpc) (mcw : Int) (cw : List Int) :
    s.colSectionToks false mcw cw =
      ((List.range s.n_cols.toNat).map fun j : Nat =>
        ((s.row.zip s.col).filter fun e => decide (e.2 = ((j : Nat) : Int))).map
          fun e => e.1 + 1).flatten := by
  unfold ldpc.colSectionToks
  show ((List.range _).map _).flatten = _
  refine congrArg List.flatten (List.map_congr_left ?_)
  intro j hj
  have h1 : (s.row.zip s.col).flatMap
      (fun e => (if e.2 = (j : Int) then [e.1 + 1] else []) ++
        (if (false : Bool) then List.replicate (mcw - cw.getD j 0).toNat 0 else [])) =
      (s.row.zip s.col).flatMap fun e => if e.2 = (j : Int) then [e.1 + 1] else [] := by
    refine congrArg _ (funext fun e => ?_)
    simp
  rw [h1]
  exact flatMap_ite_singleton (s.row.zip s.col) (fun e => e.2 = (j : Int)) fun e => e.1 + 1

/-- Evaluating the spec-side section reading on the written per-column chunks
of an edge list with in-range rows recovers the per-column filters. -/
theorem sectionEdges_eval (r : Int) (edges : List (Int × Int))
    (hrow : ∀ e ∈ edges, 0 ≤ e.1 ∧ e.1 < r) :
    ∀ (m j : Nat),
      sectionEdges paddedKeep r j ((List.range' j m).map fun i : Nat =>
          (edges.filter fun e => decide (e.2 = ((i : Nat) : Int))).map fun e => e.1 + 1)
        = (List.range' j m).flatMap fun i =>
            edges.filter fun e => decide (e.2 = ((i : Nat) : Int)) := by
  intro m
  induction m with
  | zero => intro j; rfl
  | succ m ih =>
    intro j
    rw [List.range'_succ, List.map_cons, List.flatMap_cons, sectionEdges]
    rw [ih (j + 1)]
    have hck : chunkEdges (paddedKeep r) (j : Int)
        ((edges.filter fun e => decide (e.2 = ((j : Nat) : Int))).map fun e => e.1 + 1) =
        edges.filter fun e => decide (e.2 = ((j : Nat) : Int)) := by
      unfold chunkEdges
      rw [List.filter_eq_self.mpr (by
        intro x hx
        obtain ⟨e, he, hex⟩ := List.mem_map.mp hx
        obtain ⟨h0, h1⟩ := hrow e (List.mem_of_mem_filter he)
        subst hex
        have : paddedKeep r (e.1 + 1) := by unfold paddedKeep; omega
        exact decide_eq_true this)]
      rw [List.map_map]
      refine (List.map_congr_left ?_).trans (List.map_id _)
      intro e he
      have hcol : e.2 = (j : Int) := by
        have := List.of_mem_filter he
        simpa using this
      show (e.1 + 1 - 1, (j : Int)) = e
      rw [← hcol]
      have : e.1 + 1 - 1 = e.1 := by omega
      rw [this]
    rw [hck]

/-- No log lines are emitted when no chunk entry satisfies the log
condition. -/
theorem sectionLogCount_zero (logp : Int → Int → Prop) [∀ a b, Decidable (logp a b)]
    (r : Int) (chs : List (List Int))
    (h : ∀ ch ∈ chs, ∀ t ∈ ch, ¬ logp r t) : sectionLogCount logp r chs = 0 := by
  unfold sectionLogCount
  rw [List.sum_eq_zero]
  intro x hx
  obtain ⟨ch, hch, hxe⟩ := List.mem_map.mp hx
  subst hxe
  rw [show ch.filter (fun t => decide (logp r t)) = [] from
    List.filter_eq_nil_iff.mpr fun a ha hd => h ch hch a ha (of_decide_eq_true hd)]
  rfl

/-- On a column-regular code the recomputed column weight vector is
constant. -/
theorem colWeights_replicate (s : ldpc) (c w : Nat) (hnc : s.n_cols = (c : Int))
    (hperm : List.Perm s.col (stubs c (List.replicate c ((w : Nat) : Int)))) :
    s.colWeights = List.replicate c ((w : Nat) : Int) := by
  rw [ldpc.colWeights, hnc, Int.toNat_natCast]
  rw [List.eq_replicate_iff]
  constructor
  · simp
  · intro b hb
    obtain ⟨j, hj, hbe⟩ := List.mem_map.mp hb
    rw [List.mem_range] at hj
    subst hbe
    have h1 : (s.col.filter (· = (j : Int))).length =
        ((stubs c (List.replicate c ((w : Nat) : Int))).filter (· = (j : Int))).length :=
      (hperm.filter _).length_eq
    have h2 : ((stubs c (List.replicate c ((w : Nat) : Int))).filter
        (· = (j : Int))).length = w := by
      rw [stubs_replicate]
      rw [filter_flatMap_replicate w (j : Int) (List.range c) (List.nodup_range c)]
      rw [if_pos (List.mem_map.mpr ⟨j, List.mem_range.mpr hj, rfl⟩)]
    rw [h1, h2]

/-- The header parse of an explicitly laid-out token stream. -/
theorem parseHeader_explicit (a b d e : Int) (X Y R : List Int)
    (hX : X.length = a.toNat) (hY : Y.length = b.toNat) :
    parseHeader (a :: b :: d :: e :: (X ++ (Y ++ R))) = (a, b, d, e, X, Y, R) := by
  unfold parseHeader
  simp only [readTok]
  have hX2 := readToks_append X (Y ++ R)
  rw [hX] at hX2
  rw [hX2]
  have hY2 := readToks_append Y R
  rw [hY] at hY2
  rw [hY2]

/-- C2 amended (part 1, the heart of the round trip): writing a column-regular
code with `zero_pad = false` and reading it back yields an edge list that is a
permutation of the original, with matching dimensions, no reported errors, and
the read object's `n_edges` equal to the true edge count. -/
theorem alist_roundtrip_col_regular (r c w : Nat) (rd : List Int) (s : ldpc)
    (hr : 1 ≤ r) (hc : 1 ≤ c)
    (h : randomReachable r c rd (List.replicate c ((w : Nat) : Int)) s) :
    (ldpc.read_alist ldpc.new (some (s.write_alist false)) false).2.1 = false ∧
    (ldpc.read_alist ldpc.new (some (s.write_alist false)) false).2.2 = 0 ∧
    ((ldpc.read_alist ldpc.new (some (s.write_alist false)) false).1).n_rows = s.n_rows ∧
    ((ldpc.read_alist ldpc.new (some (s.write_alist false)) false).1).n_cols = s.n_cols ∧
    ((ldpc.read_alist ldpc.new (some (s.write_alist false)) false).1).row.length
      = s.row.length ∧
    ((ldpc.read_alist ldpc.new (some (s.write_alist false)) false).1).n_edges
      = (s.row.length : Int) ∧
    s.n_edges = 0 ∧
    (((ldpc.read_alist ldpc.new (some (s.write_alist false)) false).1).sort_edges).row
      = (s.sort_edges).row ∧
    (((ldpc.read_alist ldpc.new (some (s.write_alist false)) false).1).sort_edges).col
      = (s.sort_edges).col := by
  obtain ⟨hnr, hnc, hne, hlen, hrowm, hcolm⟩ := h
  have hrowperm : List.Perm s.row (stubs r rd) := Multiset.coe_eq_coe.mp hrowm
  have hcolperm : List.Perm s.col (stubs c (List.replicate c ((w : Nat) : Int))) :=
    Multiset.coe_eq_coe.mp hcolm
  have hrowb : ∀ x ∈ s.row, 0 ≤ x ∧ x < (r : Int) := by
    intro x hx
    obtain ⟨i, hi, hxe⟩ := stubs_mem r rd x (hrowperm.mem_iff.mp hx)
    subst hxe
    constructor
    · exact Int.natCast_nonneg i
    · exact_mod_cast hi
  have hcolb : ∀ x ∈ s.col, 0 ≤ x ∧ x < (c : Int) := by
    intro x hx
    obtain ⟨i, hi, hxe⟩ :=
      stubs_mem c (List.replicate c ((w : Nat) : Int)) x (hcolperm.mem_iff.mp hx)
    subst hxe
    constructor
    · exact Int.natCast_nonneg i
    · exact_mod_cast hi
  have hedgerow : ∀ e ∈ s.row.zip s.col, 0 ≤ e.1 ∧ e.1 < (r : Int) := by
    intro e he
    obtain ⟨e1, e2⟩ := e
    exact hrowb e1 (List.of_mem_zip he).1
  have hedgecol : ∀ e ∈ s.row.zip s.col, 0 ≤ e.2 ∧ e.2 < (c : Int) := by
    intro e he
    obtain ⟨e1, e2⟩ := e
    exact hcolb e2 (List.of_mem_zip he).2
  have hcw : s.colWeights = List.replicate c ((w : Nat) : Int) :=
    colWeights_replicate s c w hnc hcolperm
  have hmax : maxWeight s.colWeights = ((w : Nat) : Int) := by
    rw [hcw]
    exact maxWeight_replicate _ (Int.natCast_nonneg w) c hc
  have hrwlen : s.rowWeights.length = r := by
    simp [ldpc.rowWeights, hnr]
  have hwrite : s.write_alist false =
      (c : Int) :: (r : Int) :: ((w : Nat) : Int) :: maxWeight s.rowWeights ::
        (List.replicate c ((w : Nat) : Int) ++ (s.rowWeights ++
          (s.colSectionToks false (maxWeight s.colWeights) s.colWeights ++
           s.rowSectionToks false (maxWeight s.rowWeights) s.rowWeights))) := by
    show [s.n_cols, s.n_rows] ++ [maxWeight s.colWeights, maxWeight s.rowWeights] ++
        s.colWeights ++ s.rowWeights ++
        s.colSectionToks false (maxWeight s.colWeights) s.colWeights ++
        s.rowSectionToks false (maxWeight s.rowWeights) s.rowWeights = _
    rw [hnc, hnr, hmax]
    rw [show s.colWeights = List.replicate c ((w : Nat) : Int) from hcw]
    simp [List.append_assoc]
  have hph : parseHeader (s.write_alist false) =
      ((c : Int), (r : Int), ((w : Nat) : Int), maxWeight s.rowWeights,
       List.replicate c ((w : Nat) : Int), s.rowWeights,
       s.colSectionToks false (maxWeight s.colWeights) s.colWeights ++
         s.rowSectionToks false (maxWeight s.rowWeights) s.rowWeights) := by
    rw [hwrite]
    exact parseHeader_explicit _ _ _ _ _ _ _
      (by rw [List.length_replicate, Int.toNat_natCast])
      (by rw [hrwlen, Int.toNat_natCast])
  have hCS : s.colSectionToks false (maxWeight s.colWeights) s.colWeights =
      ((List.range c).map fun j : Nat =>
        ((s.row.zip s.col).filter fun e => decide (e.2 = ((j : Nat) : Int))).map
          fun e => e.1 + 1).flatten := by
    rw [colSectionToks_false, hnc, Int.toNat_natCast]
  have hchlen : ∀ ch ∈ ((List.range c).map fun j : Nat =>
      ((s.row.zip s.col).filter fun e => decide (e.2 = ((j : Nat) : Int))).map
        fun e => e.1 + 1), ch.length = w := by
    intro ch hch
    obtain ⟨j, hj, hche⟩ := List.mem_map.mp hch
    subst hche
    rw [List.length_map]
    rw [zip_filter_col_length ((j : Nat) : Int) s.row s.col hlen]
    have h1 := (hcolperm.filter (· = ((j : Nat) : Int))).length_eq
    rw [h1, stubs_replicate, filter_flatMap_replicate w _ (List.range c) (List.nodup_range c)]
    rw [if_pos (List.mem_map.mpr ⟨j, hj, rfl⟩)]
  have hchunks : chunksOf (List.replicate c (((w : Nat) : Int)).toNat)
      (s.colSectionToks false (maxWeight s.colWeights) s.colWeights ++
       s.rowSectionToks false (maxWeight s.rowWeights) s.rowWeights) =
      ((List.range c).map fun j : Nat =>
        ((s.row.zip s.col).filter fun e => decide (e.2 = ((j : Nat) : Int))).map
          fun e => e.1 + 1) := by
    have hkey := chunksOf_flatten_replicate w
      ((List.range c).map fun j : Nat =>
        ((s.row.zip s.col).filter fun e => decide (e.2 = ((j : Nat) : Int))).map
          fun e => e.1 + 1)
      (s.rowSectionToks false (maxWeight s.rowWeights) s.rowWeights) hchlen
    rw [show ((List.range c).map fun j : Nat =>
        ((s.row.zip s.col).filter fun e => decide (e.2 = ((j : Nat) : Int))).map
          fun e => e.1 + 1).length = c from by simp] at hkey
    rw [Int.toNat_natCast, hCS]
    exact hkey
  have hse : sectionEdges paddedKeep ((r : Nat) : Int) 0
      ((List.range c).map fun j : Nat =>
        ((s.row.zip s.col).filter fun e => decide (e.2 = ((j : Nat) : Int))).map
          fun e => e.1 + 1) =
      (List.range c).flatMap fun i =>
        (s.row.zip s.col).filter fun e => decide (e.2 = ((i : Nat) : Int)) := by
    rw [List.range_eq_range' c]
    exact sectionEdges_eval ((r : Nat) : Int) (s.row.zip s.col) hedgerow c 0
  have hperm2 : List.Perm ((List.range c).flatMap fun i =>
      (s.row.zip s.col).filter fun e => decide (e.2 = ((i : Nat) : Int)))
      (s.row.zip s.col) :=
    flatMap_filter_perm c (s.row.zip s.col) hedgecol
  have hlog : sectionLogCount paddedLogs ((r : Nat) : Int)
      ((List.range c).map fun j : Nat =>
        ((s.row.zip s.col).filter fun e => decide (e.2 = ((j : Nat) : Int))).map
          fun e => e.1 + 1) = 0 := by
    refine sectionLogCount_zero _ _ _ ?_
    intro ch hch t ht
    obtain ⟨j, hj, hche⟩ := List.mem_map.mp hch
    subst hche
    obtain ⟨e, he, hte⟩ := List.mem_map.mp ht
    subst hte
    obtain ⟨h0, h1⟩ := hedgerow e (List.mem_of_mem_filter he)
    unfold paddedLogs
    omega
  have hRC : readCols false ((r : Nat) : Int) (List.replicate c ((w : Nat) : Int))
      ((w : Nat) : Int) 0 (((c : Nat) : Int)).toNat
      (s.colSectionToks false (maxWeight s.colWeights) s.colWeights ++
       s.rowSectionToks false (maxWeight s.rowWeights) s.rowWeights) =
      ((List.range c).flatMap fun i =>
        (s.row.zip s.col).filter fun e => decide (e.2 = ((i : Nat) : Int)), 0,
       dropToks (List.replicate (((c : Nat) : Int)).toNat (((w : Nat) : Int)).toNat)
         (s.colSectionToks false (maxWeight s.colWeights) s.colWeights ++
          s.rowSectionToks false (maxWeight s.rowWeights) s.rowWeights)) := by
    rw [Int.toNat_natCast c]
    rw [readCols_char_false ((r : Nat) : Int) (List.replicate c ((w : Nat) : Int))
      ((w : Nat) : Int) c 0]
    rw [hchunks, hse, hlog]
  have hunf : ldpc.read_alist ldpc.new (some (s.write_alist false)) false =
      ({ n_rows := ((r : Nat) : Int), n_cols := ((c : Nat) : Int),
         n_edges := ((((List.range c).flatMap fun i =>
           (s.row.zip s.col).filter fun e =>
             decide (e.2 = ((i : Nat) : Int))).length : Nat) : Int),
         row := ((List.range c).flatMap fun i =>
           (s.row.zip s.col).filter fun e =>
             decide (e.2 = ((i : Nat) : Int))).map (·.1),
         col := ((List.range c).flatMap fun i =>
           (s.row.zip s.col).filter fun e =>
             decide (e.2 = ((i : Nat) : Int))).map (·.2) }, false, 0) := by
    rw [ldpc.read_alist, hph]
    dsimp only
    rw [hRC]
  have hlen2 : ((List.range c).flatMap fun i =>
      (s.row.zip s.col).filter fun e => decide (e.2 = ((i : Nat) : Int))).length
      = s.row.length := by
    rw [hperm2.length_eq, List.length_zip]
    omega
  have hsorteq : List.insertionSort edgeLE
      ((((List.range c).flatMap fun i =>
        (s.row.zip s.col).filter fun e =>
          decide (e.2 = ((i : Nat) : Int))).map (·.1)).zip
       (((List.range c).flatMap fun i =>
        (s.row.zip s.col).filter fun e =>
          decide (e.2 = ((i : Nat) : Int))).map (·.2))) =
      List.insertionSort edgeLE (s.row.zip s.col) := by
    rw [List.zip_map']
    have hid : (((List.range c).flatMap fun i =>
        (s.row.zip s.col).filter fun e =>
          decide (e.2 = ((i : Nat) : Int))).map fun x => (x.1, x.2)) =
        ((List.range c).flatMap fun i =>
        (s.row.zip s.col).filter fun e => decide (e.2 = ((i : Nat) : Int))) := by
      refine (List.map_congr_left ?_).trans (List.map_id _)
      intro x _
      rfl
    rw [hid]
    exact insertionSort_eq_of_perm _ _ hperm2
  refine ⟨by rw [hunf], by rw [hunf], by rw [hunf, hnr], by rw [hunf, hnc], ?_, ?_, hne,
    ?_, ?_⟩
  · rw [hunf]
    show (((List.range c).flatMap fun i =>
      (s.row.zip s.col).filter fun e =>
        decide (e.2 = ((i : Nat) : Int))).map (·.1)).length = s.row.length
    rw [List.length_map]
    exact hlen2
  · rw [hunf]
    show ((((List.range c).flatMap fun i =>
      (s.row.zip s.col).filter fun e =>
        decide (e.2 = ((i : Nat) : Int))).length : Nat) : Int) = (s.row.length : Int)
    rw [hlen2]
  · rw [hunf]
    show (List.insertionSort edgeLE _).map (·.1) = (List.insertionSort edgeLE _).map (·.1)
    rw [hsorteq]
  · rw [hunf]
    show (List.insertionSort edgeLE _).map (·.2) = (List.insertionSort edgeLE _).map (·.2)
    rw [hsorteq]

/-- C2 counterexample: the irregular code with column weights (2, 1) — a
possible output of `random(2, 2, [2,1], [2,1])` — does not survive the
round trip: the reader consumes `max_col_weight = 2` entries for the
weight-1 column, mis-attributing a token of the row section, so the
sorted edge arrays differ (4 edges instead of 3) and the `n_edges` fields
disagree as well (`random` leaves `n_edges = 0`). -/
theorem alist_roundtrip_cx :
    randomReachable 2 2 [2, 1] [2, 1] (⟨2, 2, 0, [0, 1, 0], [0, 0, 1]⟩ : ldpc) ∧
    (((ldpc.read_alist ldpc.new
        (some ((⟨2, 2, 0, [0, 1, 0], [0, 0, 1]⟩ : ldpc).write_alist false))
        false).1).sort_edges).row
      ≠ ((⟨2, 2, 0, [0, 1, 0], [0, 0, 1]⟩ : ldpc).sort_edges).row ∧
    ((ldpc.read_alist ldpc.new
        (some ((⟨2, 2, 0, [0, 1, 0], [0, 0, 1]⟩ : ldpc).write_alist false))
        false).1).n_edges
      ≠ (⟨2, 2, 0, [0, 1, 0], [0, 0, 1]⟩ : ldpc).n_edges := by decide

/-- Witness for (amended) C2 on the column-regular code with `r = 1`,
`c = 2`, unit column weights: the round trip reproduces the sorted edge
arrays. -/
theorem alist_roundtrip_col_regular_witness :
    (((ldpc.read_alist ldpc.new
        (some ((⟨1, 2, 0, [0, 0], [0, 1]⟩ : ldpc).write_alist false))
        false).1).sort_edges).row
      = ((⟨1, 2, 0, [0, 0], [0, 1]⟩ : ldpc).sort_edges).row ∧
    (((ldpc.read_alist ldpc.new
        (some ((⟨1, 2, 0, [0, 0], [0, 1]⟩ : ldpc).write_alist false))
        false).1).sort_edges).col
      = ((⟨1, 2, 0, [0, 0], [0, 1]⟩ : ldpc).sort_edges).col :=
  ⟨(alist_roundtrip_col_regular 1 2 1 [2] ⟨1, 2, 0, [0, 0], [0, 1]⟩
      (by decide) (by decide) (by decide)).2.2.2.2.2.2.2.1,
   (alist_roundtrip_col_regular 1 2 1 [2] ⟨1, 2, 0, [0, 0], [0, 1]⟩
      (by decide) (by decide) (by decide)).2.2.2.2.2.2.2.2⟩

lemma getD_set_self_of_lt {α : Type} (l : List α) (i : Nat) (x d : α) (h : i < l.length) :
    (l.set i x).getD i d = x := by
  rw [List.getD_eq_getElem _ _ (by rw [List.length_set]; exact h)]
  exact List.getElem_set_self _

lemma getD_set_of_ne {α : Type} (l : List α) (i j : Nat) (x d : α) (h : i ≠ j) :
    (l.set i x).getD j d = l.getD j d := by
  rw [List.getD_eq_getElem?_getD, List.getD_eq_getElem?_getD, List.getElem?_set_ne h]

lemma getD_replicate_of_lt {α : Type} (n i : Nat) (a d : α) (h : i < n) :
    (List.replicate n a).getD i d = a := by
  rw [List.getD_eq_getElem?_getD, List.getElem?_replicate, if_pos h]
  rfl

lemma foldl_xor_signbit (ms : List ℚ) (b0 : Bool) :
    ms.foldl (fun b m => xor b (signbit m)) b0 = xor b0 ((ms.map signbit).foldr xor false) := by
  induction ms generalizing b0 with
  | nil => simp
  | cons m t ih =>
    rw [List.foldl_cons, ih (xor b0 (signbit m)), List.map_cons, List.foldr_cons,
      Bool.xor_assoc]

lemma twoSmall_lt1 (a b m : ℚ) (h : m < a) : twoSmall (a, b) m = (m, a) := by
  unfold twoSmall
  rw [if_pos h]

lemma twoSmall_lt2 (a b m : ℚ) (h1 : ¬ m < a) (h2 : m < b) : twoSmall (a, b) m = (a, m) := by
  unfold twoSmall
  rw [if_neg h1, if_pos h2]

lemma twoSmall_ge (a b m : ℚ) (h1 : ¬ m < a) (h2 : ¬ m < b) : twoSmall (a, b) m = (a, b) := by
  unfold twoSmall
  rw [if_neg h1, if_neg h2]

lemma twoSmall_foldl_inv (P : List ℚ) :
    ∀ (a b : ℚ) (rest : List ℚ), a ≤ b → (∀ x ∈ rest, b ≤ x) →
    ∃ rest2 : List ℚ,
      (P.foldl twoSmall (a, b)).1 ≤ (P.foldl twoSmall (a, b)).2 ∧
      (∀ x ∈ rest2, (P.foldl twoSmall (a, b)).2 ≤ x) ∧
      ((P.foldl twoSmall (a, b)).1 :: (P.foldl twoSmall (a, b)).2 :: rest2).Perm
        (P ++ a :: b :: rest) := by
  induction P with
  | nil =>
    intro a b rest hab hr
    exact ⟨rest, hab, hr, List.Perm.refl _⟩
  | cons m t ih =>
    intro a b rest hab hr
    rw [List.foldl_cons]
    by_cases h1 : m < a
    · rw [twoSmall_lt1 a b m h1]
      obtain ⟨r2, hab2, hr2, hp⟩ := ih m a (b :: rest) (le_of_lt h1)
        (by
          intro x hx
          rcases List.mem_cons.mp hx with h | h
          · exact h ▸ hab
          · exact le_trans hab (hr x h))
      exact ⟨r2, hab2, hr2, hp.trans List.perm_middle⟩
    · by_cases h2 : m < b
      · rw [twoSmall_lt2 a b m h1 h2]
        obtain ⟨r2, hab2, hr2, hp⟩ := ih a m (b :: rest) (le_of_not_lt h1)
          (by
            intro x hx
            rcases List.mem_cons.mp hx with h | h
            · exact h ▸ le_of_lt h2
            · exact le_trans (le_of_lt h2) (hr x h))
        refine ⟨r2, hab2, hr2, hp.trans ?_⟩
        have s1 : (a :: m :: b :: rest).Perm (m :: a :: b :: rest) :=
          List.Perm.swap m a (b :: rest)
        exact (List.Perm.append_left t s1).trans List.perm_middle
      · rw [twoSmall_ge a b m h1 h2]
        obtain ⟨r2, hab2, hr2, hp⟩ := ih a b (m :: rest) hab
          (by
            intro x hx
            rcases List.mem_cons.mp hx with h | h
            · exact h ▸ le_of_not_lt h2
            · exact hr x h)
        refine ⟨r2, hab2, hr2, hp.trans ?_⟩
        have s1 : (a :: b :: m :: rest).Perm (m :: a :: b :: rest) :=
          @List.perm_middle ℚ m [a, b] rest
        exact (List.Perm.append_left t s1).trans List.perm_middle

lemma twoSmall_foldl_sorted (L : List ℚ) (hlt : ∀ x ∈ L, x < MAX_LLR) (hlen : 2 ≤ L.length) :
    L.foldl twoSmall (MAX_LLR, MAX_LLR) =
      ((List.insertionSort (· ≤ ·) L).getD 0 0, (List.insertionSort (· ≤ ·) L).getD 1 0) := by
  obtain ⟨r2, hab, hr, hp⟩ := twoSmall_foldl_inv L MAX_LLR MAX_LLR []
    (le_refl _) (by intro x hx; exact absurd hx (List.not_mem_nil x))
  have hS1 : List.Sorted (· ≤ ·)
      ((L.foldl twoSmall (MAX_LLR, MAX_LLR)).1 ::
        (L.foldl twoSmall (MAX_LLR, MAX_LLR)).2 :: List.insertionSort (· ≤ ·) r2) := by
    rw [List.sorted_cons]
    refine ⟨?_, ?_⟩
    · intro b hb
      rcases List.mem_cons.mp hb with h | h
      · exact h ▸ hab
      · exact le_trans hab (hr b ((List.perm_insertionSort _ r2).subset h))
    · rw [List.sorted_cons]
      exact ⟨fun b hb => hr b ((List.perm_insertionSort _ r2).subset hb),
        List.sorted_insertionSort _ r2⟩
  have hP1 : ((L.foldl twoSmall (MAX_LLR, MAX_LLR)).1 ::
      (L.foldl twoSmall (MAX_LLR, MAX_LLR)).2 :: List.insertionSort (· ≤ ·) r2).Perm
      (L ++ [MAX_LLR, MAX_LLR]) :=
    (((List.perm_insertionSort (· ≤ ·) r2).cons _).cons _).trans hp
  have hEq1 : List.insertionSort (· ≤ ·) (L ++ [MAX_LLR, MAX_LLR]) =
      (L.foldl twoSmall (MAX_LLR, MAX_LLR)).1 ::
        (L.foldl twoSmall (MAX_LLR, MAX_LLR)).2 :: List.insertionSort (· ≤ ·) r2 :=
    List.eq_of_perm_of_sorted ((List.perm_insertionSort _ _).trans hP1.symm)
      (List.sorted_insertionSort _ _) hS1
  have hEq2 : List.insertionSort (· ≤ ·) (L ++ [MAX_LLR, MAX_LLR]) =
      List.insertionSort (· ≤ ·) L ++ [MAX_LLR, MAX_LLR] := by
    refine List.eq_of_perm_of_sorted ?_ (List.sorted_insertionSort _ _) ?_
    · exact (List.perm_insertionSort _ _).trans
        (((List.perm_insertionSort (· ≤ ·) L).append_right [MAX_LLR, MAX_LLR]).symm)
    · rw [List.Sorted, List.pairwise_append]
      refine ⟨List.sorted_insertionSort _ _, by decide, ?_⟩
      intro x hx y hy
      have hxL : x < MAX_LLR := hlt x ((List.perm_insertionSort _ L).subset hx)
      have hy17 : y = MAX_LLR := by
        rcases List.mem_cons.mp hy with h | h
        · exact h
        · rw [List.mem_singleton] at h
          exact h
      rw [hy17]
      exact le_of_lt hxL
  rw [hEq2] at hEq1
  have hlen2 : 2 ≤ (List.insertionSort (· ≤ ·) L).length := by
    rw [(List.perm_insertionSort (· ≤ ·) L).length_eq]
    exact hlen
  rcases hSL : List.insertionSort (· ≤ ·) L with _ | ⟨s0, tl0⟩
  · rw [hSL] at hlen2
    exact absurd hlen2 (by decide)
  rcases htl : tl0 with _ | ⟨s1, tl⟩
  · rw [hSL, htl] at hlen2
    simp at hlen2
  rw [htl] at hSL
  rw [hSL] at hEq1
  have h0 : s0 = (L.foldl twoSmall (MAX_LLR, MAX_LLR)).1 := by
    injection hEq1
  have hEq1b := hEq1
  injection hEq1b with hh ht2
  injection ht2 with h1 _
  rw [List.getD_cons_zero, List.getD_cons_succ, List.getD_cons_zero, h0, h1]


lemma checkAccumStep_cases (acc : CheckAcc) (ri : Nat) (bm : ℚ) :
    checkAccumStep acc ri bm =
      if |bm| < acc.check_accum.getD ri 0 then
        ⟨acc.check_sign.set ri (xor (acc.check_sign.getD ri false) (signbit bm)),
         acc.check_accum.set ri |bm|,
         acc.check_accum2.set ri (acc.check_accum.getD ri 0)⟩
      else if |bm| < acc.check_accum2.getD ri 0 then
        ⟨acc.check_sign.set ri (xor (acc.check_sign.getD ri false) (signbit bm)),
         acc.check_accum,
         acc.check_accum2.set ri |bm|⟩
      else
        ⟨acc.check_sign.set ri (xor (acc.check_sign.getD ri false) (signbit bm)),
         acc.check_accum, acc.check_accum2⟩ := rfl

lemma checkAccumStep_lengths (acc : CheckAcc) (ri : Nat) (bm : ℚ) :
    (checkAccumStep acc ri bm).check_sign.length = acc.check_sign.length ∧
    (checkAccumStep acc ri bm).check_accum.length = acc.check_accum.length ∧
    (checkAccumStep acc ri bm).check_accum2.length = acc.check_accum2.length := by
  rw [checkAccumStep_cases]
  split_ifs
  · exact ⟨List.length_set _ _ _, List.length_set _ _ _, List.length_set _ _ _⟩
  · exact ⟨List.length_set _ _ _, rfl, List.length_set _ _ _⟩
  · exact ⟨List.length_set _ _ _, rfl, rfl⟩

lemma checkAccumStep_getD_self (acc : CheckAcc) (ri : Nat) (bm : ℚ)
    (h1 : ri < acc.check_sign.length) (h2 : ri < acc.check_accum.length)
    (h3 : ri < acc.check_accum2.length) :
    (checkAccumStep acc ri bm).check_sign.getD ri false =
      xor (acc.check_sign.getD ri false) (signbit bm) ∧
    ((checkAccumStep acc ri bm).check_accum.getD ri 0,
     (checkAccumStep acc ri bm).check_accum2.getD ri 0) =
      twoSmall (acc.check_accum.getD ri 0, acc.check_accum2.getD ri 0) |bm| := by
  rw [checkAccumStep_cases]
  by_cases hA : |bm| < acc.check_accum.getD ri 0
  · rw [if_pos hA, twoSmall_lt1 _ _ _ hA]
    exact ⟨getD_set_self_of_lt _ _ _ _ h1,
      by rw [getD_set_self_of_lt _ _ _ _ h2, getD_set_self_of_lt _ _ _ _ h3]⟩
  · rw [if_neg hA]
    by_cases hB : |bm| < acc.check_accum2.getD ri 0
    · rw [if_pos hB, twoSmall_lt2 _ _ _ hA hB]
      exact ⟨getD_set_self_of_lt _ _ _ _ h1,
        by rw [getD_set_self_of_lt _ _ _ _ h3]⟩
    · rw [if_neg hB, twoSmall_ge _ _ _ hA hB]
      exact ⟨getD_set_self_of_lt _ _ _ _ h1, rfl⟩

lemma checkAccumStep_getD_ne (acc : CheckAcc) (ri : Nat) (bm : ℚ) (i : Nat) (h : ri ≠ i) :
    (checkAccumStep acc ri bm).check_sign.getD i false = acc.check_sign.getD i false ∧
    (checkAccumStep acc ri bm).check_accum.getD i 0 = acc.check_accum.getD i 0 ∧
    (checkAccumStep acc ri bm).check_accum2.getD i 0 = acc.check_accum2.getD i 0 := by
  rw [checkAccumStep_cases]
  split_ifs
  · exact ⟨getD_set_of_ne _ _ _ _ _ h, getD_set_of_ne _ _ _ _ _ h,
      getD_set_of_ne _ _ _ _ _ h⟩
  · exact ⟨getD_set_of_ne _ _ _ _ _ h, rfl, getD_set_of_ne _ _ _ _ _ h⟩
  · exact ⟨getD_set_of_ne _ _ _ _ _ h, rfl, rfl⟩

lemma checkFold_getD (es : List (Nat × ℚ)) :
    ∀ (acc : CheckAcc) (i : Nat), i < acc.check_sign.length → i < acc.check_accum.length →
      i < acc.check_accum2.length →
      (es.foldl (fun a e => checkAccumStep a e.1 e.2) acc).check_sign.getD i false =
        ((es.filter fun e => decide (e.1 = i)).map (fun e => e.2)).foldl
          (fun b m => xor b (signbit m)) (acc.check_sign.getD i false) ∧
      ((es.foldl (fun a e => checkAccumStep a e.1 e.2) acc).check_accum.getD i 0,
       (es.foldl (fun a e => checkAccumStep a e.1 e.2) acc).check_accum2.getD i 0) =
        (((es.filter fun e => decide (e.1 = i)).map (fun e => e.2)).map (fun m => |m|)).foldl
          twoSmall (acc.check_accum.getD i 0, acc.check_accum2.getD i 0) := by
  induction es with
  | nil =>
    intro acc i h1 h2 h3
    exact ⟨rfl, rfl⟩
  | cons e t ih =>
    intro acc i h1 h2 h3
    obtain ⟨ri, m⟩ := e
    simp only [List.foldl_cons]
    obtain ⟨hL1, hL2, hL3⟩ := checkAccumStep_lengths acc ri m
    obtain ⟨hs, hp⟩ := ih (checkAccumStep acc ri m) i (hL1 ▸ h1) (hL2 ▸ h2) (hL3 ▸ h3)
    by_cases he : ri = i
    · have hfil : (((ri, m) :: t).filter fun e => decide (e.1 = i)) =
          (ri, m) :: (t.filter fun e => decide (e.1 = i)) := by
        rw [List.filter_cons, if_pos (decide_eq_true he)]
      rw [hfil, List.map_cons, List.foldl_cons, List.map_cons, List.foldl_cons]
      subst he
      obtain ⟨hg1, hg2⟩ := checkAccumStep_getD_self acc ri m h1 h2 h3
      constructor
      · rw [hs, hg1]
      · rw [hp, hg2]
    · have hfil : (((ri, m) :: t).filter fun e => decide (e.1 = i)) =
          t.filter fun e => decide (e.1 = i) := by
        rw [List.filter_cons, if_neg (by simp [he])]
      rw [hfil]
      obtain ⟨hg1, hg2, hg3⟩ := checkAccumStep_getD_ne acc ri m i he
      constructor
      · rw [hs, hg1]
      · rw [hp, hg2, hg3]


lemma checkNodePass_getD (rowL : List Nat) (bm : List ℚ) (r : Nat) (i : Nat) (hi : i < r) :
    (checkNodePass rowL bm r).check_sign.getD i false =
      ((incoming rowL bm i).map signbit).foldr xor false ∧
    ((checkNodePass rowL bm r).check_accum.getD i 0,
     (checkNodePass rowL bm r).check_accum2.getD i 0) =
      ((incoming rowL bm i).map (fun m => |m|)).foldl twoSmall (MAX_LLR, MAX_LLR) := by
  obtain ⟨hs, hp⟩ := checkFold_getD (rowL.zip bm)
    ⟨List.replicate r false, List.replicate r MAX_LLR, List.replicate r MAX_LLR⟩ i
    (by simpa using hi) (by simpa using hi) (by simpa using hi)
  dsimp only at hs hp
  rw [getD_replicate_of_lt _ _ _ _ hi] at hs
  rw [getD_replicate_of_lt _ _ _ _ hi] at hp
  unfold checkNodePass
  constructor
  · rw [hs, foldl_xor_signbit, Bool.false_xor]
    rfl
  · rw [hp]
    rfl

lemma checkMags_eq_incoming (rowL : List Nat) (bm : List ℚ) (i : Nat) :
    checkMags rowL bm i = (incoming rowL bm i).map (fun m => |m|) := by
  unfold checkMags incoming
  rw [List.map_map]
  rfl

lemma incoming_sign_foldr (rowL : List Nat) (bm : List ℚ) (i : Nat) :
    ((incoming rowL bm i).map signbit).foldr xor false = signXorOf rowL bm i := by
  unfold signXorOf incoming
  rw [List.map_map]
  rfl

/-- C4 amended: in the min-sum check-node pass, for every edge `e` whose
check `row[e]` has every incoming magnitude below `MAX_LLR` and at least two
incident edges, the check message of `e` equals `s · (m − MIN_SUM_OFFSET)` with
`m` the check's second-smallest incoming magnitude when `|bit_message[e]|`
equals its smallest and the smallest otherwise, and `s = −1` iff the XOR of the
check's incoming sign bits XOR the edge's own sign bit is set; the offset is
subtracted after selecting `m`, without clamping at zero.  Without the
magnitude bound the running pair is polluted by the `MAX_LLR` sentinels the
accumulators start from, and the claimed formula fails
(`checkmsg_sentinel_cx`). -/
theorem checkmsg_minsum_formula (rowL : List Nat) (bm : List ℚ) (r : Nat)
    (hlen : bm.length = rowL.length)
    (hrows : ∀ ri ∈ rowL, ri < r)
    (e : Nat) (he : e < rowL.length)
    (hmag : ∀ x ∈ checkMags rowL bm (rowL.getD e 0), x < MAX_LLR)
    (hdeg : 2 ≤ (checkMags rowL bm (rowL.getD e 0)).length) :
    (checkMessages rowL bm (checkNodePass rowL bm r)).getD e 0 =
      checkMessageClaim rowL bm e := by
  have heb : e < bm.length := by omega
  have hez : e < (rowL.zip bm).length := by
    rw [List.length_zip]
    omega
  have hrow : rowL.getD e 0 = rowL[e] := List.getD_eq_getElem rowL 0 he
  have hbm : bm.getD e 0 = bm[e] := List.getD_eq_getElem bm 0 heb
  have hi : rowL[e] < r := hrows _ (List.getElem_mem he)
  obtain ⟨hs, hp⟩ := checkNodePass_getD rowL bm r rowL[e] hi
  have hfold := twoSmall_foldl_sorted (checkMags rowL bm rowL[e])
    (hrow ▸ hmag) (hrow ▸ hdeg)
  rw [← checkMags_eq_incoming] at hp
  have hPair := hp.trans hfold
  have hA : (checkNodePass rowL bm r).check_accum.getD rowL[e] 0 =
      smallestMag rowL bm rowL[e] := congrArg Prod.fst hPair
  have hA2 : (checkNodePass rowL bm r).check_accum2.getD rowL[e] 0 =
      secondMag rowL bm rowL[e] := congrArg Prod.snd hPair
  have hS : (checkNodePass rowL bm r).check_sign.getD rowL[e] false =
      signXorOf rowL bm rowL[e] := hs.trans (incoming_sign_foldr rowL bm rowL[e])
  unfold checkMessages checkMessageClaim
  rw [List.getD_eq_getElem _ _ (by rw [List.length_map]; exact hez)]
  rw [List.getElem_map, List.getElem_zip]
  dsimp only
  rw [hrow, hbm, hA, hA2, hS]


unseal Rat.add Rat.sub Rat.mul Rat.inv Rat.ofScientific in
/-- C4 counterexample: a check with incoming
magnitudes `5` and `20` — the second magnitude not below `MAX_LLR = 17` — keeps
the sentinel `17` as its second-smallest accumulator, so the code's message for
edge 0 is `17 − 0.3 = 167/10` while the claimed formula (true second-smallest
incoming magnitude) gives `20 − 0.3 = 197/10`. -/
theorem checkmsg_sentinel_cx :
    checkMessageClaim [0, 0] ([5, 20] : List ℚ) 0 = 197 / 10 ∧
    (checkMessages [0, 0] ([5, 20] : List ℚ)
        (checkNodePass [0, 0] [5, 20] 1)).getD 0 0 = 167 / 10 ∧
    (checkMessages [0, 0] ([5, 20] : List ℚ)
        (checkNodePass [0, 0] [5, 20] 1)).getD 0 0 ≠
      checkMessageClaim [0, 0] ([5, 20] : List ℚ) 0 := by
  refine ⟨by decide, by decide, by decide⟩

unseal Rat.add Rat.sub Rat.mul Rat.inv Rat.ofScientific in
theorem checkmsg_minsum_formula_witness :
    (checkMessages [0, 0, 0] ([3, -5, 7] : List ℚ)
        (checkNodePass [0, 0, 0] [3, -5, 7] 1)).getD 0 0 =
      checkMessageClaim [0, 0, 0] [3, -5, 7] 0 :=
  checkmsg_minsum_formula [0, 0, 0] [3, -5, 7] 1 (by decide) (by decide) 0 (by decide)
    (by decide) (by decide)

lemma findIn_none (P : Nat → Bool) :
    ∀ (cnt s : Nat), findIn P s cnt = none → ∀ x, s ≤ x → x < s + cnt → P x = false := by
  intro cnt
  induction cnt with
  | zero => intro s h x hx1 hx2; omega
  | succ c ih =>
    intro s h x hx1 hx2
    rw [findIn] at h
    by_cases hP : P s
    · rw [if_pos hP] at h
      exact absurd h (by simp)
    · rw [if_neg hP] at h
      rcases Nat.eq_or_lt_of_le hx1 with he | hlt
      · rw [← he]
        exact Bool.of_not_eq_true hP
      · exact ih (s + 1) h x hlt (by omega)

lemma findIn_some (P : Nat → Bool) :
    ∀ (cnt s j : Nat), findIn P s cnt = some j → s ≤ j ∧ j < s + cnt ∧ P j = true := by
  intro cnt
  induction cnt with
  | zero => intro s j h; exact absurd h (by rw [findIn]; simp)
  | succ c ih =>
    intro s j h
    rw [findIn] at h
    by_cases hP : P s
    · rw [if_pos hP] at h
      have : s = j := by injection h
      rw [← this]
      exact ⟨le_refl s, by omega, hP⟩
    · rw [if_neg hP] at h
      obtain ⟨h1, h2, h3⟩ := ih (s + 1) j h
      exact ⟨by omega, by omega, h3⟩

lemma findIn_first (P : Nat → Bool) :
    ∀ (cnt s j : Nat), s ≤ j → j < s + cnt → P j = true →
      (∀ x, s ≤ x → x < j → P x = false) → findIn P s cnt = some j := by
  intro cnt
  induction cnt with
  | zero => intro s j h1 h2; omega
  | succ c ih =>
    intro s j h1 h2 h3 h4
    rw [findIn]
    rcases Nat.eq_or_lt_of_le h1 with he | hlt
    · subst he
      rw [if_pos h3]
    · rw [if_neg (by rw [h4 s (le_refl s) hlt]; exact Bool.false_ne_true)]
      exact ih (s + 1) j hlt (by omega) h3 (fun x hx1 hx2 => h4 x (by omega) hx2)

lemma findPivot_none (D : Nat → Nat → ZMod 2) (p : Nat → Nat) (r i : Nat) (hir : i ≤ r) :
    ∀ (cnt k0 : Nat), findPivot D p r i k0 cnt = none →
      ∀ k, k0 ≤ k → k < k0 + cnt → ∀ j, i ≤ j → j < r → D j (p k) = 0 := by
  intro cnt
  induction cnt with
  | zero => intro k0 h k hk1 hk2; omega
  | succ c ih =>
    intro k0 h k hk1 hk2 j hj1 hj2
    rw [findPivot] at h
    rcases hfi : findIn (fun j => decide (D j (p k0) = 1)) i (r - i) with _ | j'
    · rcases Nat.eq_or_lt_of_le hk1 with he | hlt
      · have hz := findIn_none _ _ _ hfi j hj1 (by omega)
        rw [← he]
        have hne : ¬ D j (p k0) = 1 := by
          intro hc
          rw [hc] at hz
          simp at hz
        have hall : ∀ y : ZMod 2, ¬ y = 1 → y = 0 := by decide
        exact hall _ hne
      · rw [hfi] at h
        exact ih (k0 + 1) h k hlt (by omega) j hj1 hj2
    · rw [hfi] at h
      exact absurd h (by simp)

lemma findPivot_some (D : Nat → Nat → ZMod 2) (p : Nat → Nat) (r i : Nat) (hir : i ≤ r) :
    ∀ (cnt k0 k j : Nat), findPivot D p r i k0 cnt = some (k, j) →
      k0 ≤ k ∧ k < k0 + cnt ∧ i ≤ j ∧ j < r ∧ D j (p k) = 1 := by
  intro cnt
  induction cnt with
  | zero => intro k0 k j h; exact absurd h (by rw [findPivot]; simp)
  | succ c ih =>
    intro k0 k j h
    rw [findPivot] at h
    rcases hfi : findIn (fun j => decide (D j (p k0) = 1)) i (r - i) with _ | j'
    · rw [hfi] at h
      obtain ⟨h1, h2, h3, h4, h5⟩ := ih (k0 + 1) k j h
      exact ⟨by omega, by omega, h3, h4, h5⟩
    · rw [hfi] at h
      have hkj : k0 = k ∧ j' = j := by
        have := h
        simp at this
        exact ⟨this.1, this.2⟩
      obtain ⟨hk, hj⟩ := hkj
      obtain ⟨g1, g2, g3⟩ := findIn_some _ _ _ _ hfi
      subst hk
      subst hj
      exact ⟨le_refl k0, by omega, g1, by omega, of_decide_eq_true g3⟩

lemma swapFun_apply_fst (i k : Nat) (p : Nat → Nat) : swapFun i k p i = p k := by
  unfold swapFun
  rw [if_pos rfl]

lemma swapFun_apply_other (i k : Nat) (p : Nat → Nat) (x : Nat) (h1 : x ≠ i) (h2 : x ≠ k) :
    swapFun i k p x = p x := by
  unfold swapFun
  rw [if_neg h1, if_neg h2]

lemma swapFun_eq_comp (i k : Nat) (p : Nat → Nat) :
    swapFun i k p = p ∘ (Equiv.swap i k) := by
  funext x
  unfold swapFun
  show _ = p (Equiv.swap i k x)
  rw [Equiv.swap_apply_def]
  split_ifs <;> rfl

lemma swapFun_bijective (i k : Nat) (p : Nat → Nat) (h : Function.Bijective p) :
    Function.Bijective (swapFun i k p) := by
  rw [swapFun_eq_comp]
  exact h.comp (Equiv.swap i k).bijective

lemma rowSwap_dot (i j : Nat) (D : Nat → Nat → ZMod 2) (n : Nat) (w : Nat → ZMod 2) (a : Nat) :
    ∑ b ∈ Finset.range n, rowSwapD i j D a b * w b =
      ∑ b ∈ Finset.range n, D (if a = i then j else if a = j then i else a) b * w b := rfl

lemma rowSwap_solEquiv (i j : Nat) (D : Nat → Nat → ZMod 2) (r n : Nat)
    (hi : i < r) (hj : j < r) (w : Nat → ZMod 2) :
    (∀ a, a < r → ∑ b ∈ Finset.range n, rowSwapD i j D a b * w b = 0) ↔
    (∀ a, a < r → ∑ b ∈ Finset.range n, D a b * w b = 0) := by
  constructor
  · intro h a ha
    by_cases hai : a = i
    · have := h j hj
      rw [rowSwap_dot] at this
      by_cases hji : j = i
      · rw [if_pos hji] at this
        rw [hji] at this
        rw [hai]
        exact this
      · rw [if_neg hji, if_pos rfl] at this
        rw [hai]
        exact this
    · by_cases haj : a = j
      · have := h i hi
        rw [rowSwap_dot, if_pos rfl] at this
        rw [haj]
        exact this
      · have := h a ha
        rw [rowSwap_dot, if_neg hai, if_neg haj] at this
        exact this
  · intro h a ha
    rw [rowSwap_dot]
    by_cases hai : a = i
    · rw [if_pos hai]
      exact h j hj
    · rw [if_neg hai]
      by_cases haj : a = j
      · rw [if_pos haj]
        exact h i hi
      · rw [if_neg haj]
        exact h a ha

lemma elim_dot (i pi : Nat) (D : Nat → Nat → ZMod 2) (n : Nat) (w : Nat → ZMod 2) (a : Nat) :
    ∑ b ∈ Finset.range n, elimRows i pi D a b * w b =
      if a ≠ i ∧ D a pi = 1 then
        (∑ b ∈ Finset.range n, D a b * w b) + ∑ b ∈ Finset.range n, D i b * w b
      else ∑ b ∈ Finset.range n, D a b * w b := by
  by_cases h : a ≠ i ∧ D a pi = 1
  · rw [if_pos h, ← Finset.sum_add_distrib]
    apply Finset.sum_congr rfl
    intro b _
    unfold elimRows
    rw [if_pos h, add_mul]
  · rw [if_neg h]
    apply Finset.sum_congr rfl
    intro b _
    unfold elimRows
    rw [if_neg h]

lemma elim_solEquiv (i pi : Nat) (D : Nat → Nat → ZMod 2) (r n : Nat)
    (hi : i < r) (w : Nat → ZMod 2) :
    (∀ a, a < r → ∑ b ∈ Finset.range n, elimRows i pi D a b * w b = 0) ↔
    (∀ a, a < r → ∑ b ∈ Finset.range n, D a b * w b = 0) := by
  constructor
  · intro h a ha
    have hrow_i : ∑ b ∈ Finset.range n, D i b * w b = 0 := by
      have := h i hi
      rw [elim_dot, if_neg (by simp)] at this
      exact this
    have := h a ha
    rw [elim_dot] at this
    by_cases hc : a ≠ i ∧ D a pi = 1
    · rw [if_pos hc, hrow_i, add_zero] at this
      exact this
    · rw [if_neg hc] at this
      exact this
  · intro h a ha
    rw [elim_dot]
    by_cases hc : a ≠ i ∧ D a pi = 1
    · rw [if_pos hc, h a ha, h i hi, add_zero]
    · rw [if_neg hc]
      exact h a ha

lemma zmod2_eq_zero_of_ne_one (x : ZMod 2) (h : ¬ x = 1) : x = 0 := by
  revert h
  revert x
  decide

lemma zmod2_one_add_one : (1 : ZMod 2) + 1 = 0 := by decide

lemma rowSwapD_apply (i j : Nat) (D : Nat → Nat → ZMod 2) (a b : Nat) :
    rowSwapD i j D a b = D (if a = i then j else if a = j then i else a) b := rfl

lemma pivotStep_cols (D : Nat → Nat → ZMod 2) (p : Nat → Nat) (r i k j : Nat)
    (hik : i ≤ k) (hij : i ≤ j) (hjr : j < r)
    (hpiv : D j (p k) = 1)
    (hF1 : ∀ l, l < i → ∀ a, a < r → D a (p l) = if a = l then 1 else 0) :
    ∀ l, l < i + 1 → ∀ a, a < r →
      elimRows i (swapFun i k p i) (rowSwapD i j D) a (swapFun i k p l) =
        if a = l then 1 else 0 := by
  intro l hl a ha
  have hD1pk : ∀ x : Nat, rowSwapD i j D x (p k) =
      D (if x = i then j else if x = j then i else x) (p k) := fun x => rfl
  have hD1ipk : rowSwapD i j D i (p k) = 1 := by
    rw [hD1pk, if_pos rfl]
    exact hpiv
  by_cases hli : l = i
  · -- pivot column becomes the unit column e_i
    rw [hli, swapFun_apply_fst]
    by_cases hai : a = i
    · rw [hai]
      unfold elimRows
      rw [if_neg (by simp), hD1ipk, if_pos rfl]
    · unfold elimRows
      by_cases hc : ¬ a = i ∧ rowSwapD i j D a (p k) = 1
      · rw [if_pos hc, hc.2, hD1ipk, zmod2_one_add_one, if_neg hai]
      · rw [if_neg hc, if_neg hai]
        apply zmod2_eq_zero_of_ne_one
        intro hone
        exact hc ⟨hai, hone⟩
  · -- older unit columns survive the step
    have hlt : l < i := by omega
    have hir2 : i < r := by omega
    have hlk : l ≠ k := by omega
    rw [swapFun_apply_other i k p l (by omega) hlk, swapFun_apply_fst]
    have hD1col : ∀ x, x < r → rowSwapD i j D x (p l) = if x = l then 1 else 0 := by
      intro x hx
      rw [rowSwapD_apply]
      by_cases hxi : x = i
      · rw [if_pos hxi, hF1 l hlt j hjr, if_neg (by omega), if_neg (by omega)]
      · rw [if_neg hxi]
        by_cases hxj : x = j
        · rw [if_pos hxj, hF1 l hlt i (by omega), if_neg (by omega), if_neg (by omega)]
        · rw [if_neg hxj, hF1 l hlt x hx]
    unfold elimRows
    by_cases hc : ¬ a = i ∧ rowSwapD i j D a (p k) = 1
    · have e2 : rowSwapD i j D i (p l) = 0 := by
        rw [hD1col i hir2, if_neg (by omega)]
      rw [if_pos hc, e2, add_zero]
      exact hD1col a ha
    · rw [if_neg hc]
      exact hD1col a ha

lemma gaussAux_invariant (r n : Nat) (D0 : Nat → Nat → ZMod 2) :
    ∀ (fuel i : Nat) (D : Nat → Nat → ZMod 2) (p : Nat → Nat),
      i + fuel = r →
      Function.Bijective p → (∀ x, n ≤ x → p x = x) →
      (∀ l, l < i → ∀ a, a < r → D a (p l) = if a = l then 1 else 0) →
      (∀ w : Nat → ZMod 2,
        (∀ a, a < r → ∑ b ∈ Finset.range n, D a b * w b = 0) ↔
        (∀ a, a < r → ∑ b ∈ Finset.range n, D0 a b * w b = 0)) →
      i ≤ (gaussAux r n i fuel D p).2.2 ∧
      (gaussAux r n i fuel D p).2.2 ≤ r ∧
      Function.Bijective (gaussAux r n i fuel D p).2.1 ∧
      (∀ x, n ≤ x → (gaussAux r n i fuel D p).2.1 x = x) ∧
      (∀ l, l < (gaussAux r n i fuel D p).2.2 → ∀ a, a < r →
        (gaussAux r n i fuel D p).1 a ((gaussAux r n i fuel D p).2.1 l) =
          if a = l then 1 else 0) ∧
      ((gaussAux r n i fuel D p).2.2 < r →
        ∀ a, (gaussAux r n i fuel D p).2.2 ≤ a → a < r →
        ∀ m, (gaussAux r n i fuel D p).2.2 ≤ m → m < n →
          (gaussAux r n i fuel D p).1 a ((gaussAux r n i fuel D p).2.1 m) = 0) ∧
      (∀ w : Nat → ZMod 2,
        (∀ a, a < r → ∑ b ∈ Finset.range n, (gaussAux r n i fuel D p).1 a b * w b = 0) ↔
        (∀ a, a < r → ∑ b ∈ Finset.range n, D0 a b * w b = 0)) := by
  intro fuel
  induction fuel with
  | zero =>
    intro i D p hif hbij hfix hF1 hsol
    rw [gaussAux]
    dsimp only
    exact ⟨le_refl i, by omega, hbij, hfix, hF1, by omega, hsol⟩
  | succ f ih =>
    intro i D p hif hbij hfix hF1 hsol
    have hir : i < r := by omega
    rcases hfp : findPivot D p r i i (n - i) with _ | ⟨k, j⟩
    · have hG : gaussAux r n i (f + 1) D p = (D, p, i) := by
        rw [gaussAux, hfp]
      rw [hG]
      dsimp only
      refine ⟨le_refl i, by omega, hbij, hfix, hF1, ?_, hsol⟩
      intro _ a hia har m him hmn
      by_cases hmi : m < i
      · rw [hF1 m hmi a har, if_neg (by omega)]
      · exact findPivot_none D p r i (by omega) (n - i) i hfp m (by omega) (by omega) a hia har
    · obtain ⟨hk1, hk2, hj1, hj2, hpiv⟩ :=
        findPivot_some D p r i (by omega) (n - i) i k j hfp
      have hG : gaussAux r n i (f + 1) D p =
          gaussAux r n (i + 1) f (elimRows i (swapFun i k p i) (rowSwapD i j D))
            (swapFun i k p) := by
        rw [gaussAux, hfp]
      rw [hG]
      have hkn : k < n := by omega
      have hbij1 : Function.Bijective (swapFun i k p) := swapFun_bijective i k p hbij
      have hfix1 : ∀ x, n ≤ x → swapFun i k p x = x := by
        intro x hx
        rw [swapFun_apply_other i k p x (by omega) (by omega)]
        exact hfix x hx
      have hF1new := pivotStep_cols D p r i k j hk1 hj1 hj2 hpiv hF1
      have hsol1 : ∀ w : Nat → ZMod 2,
          (∀ a, a < r → ∑ b ∈ Finset.range n,
            elimRows i (swapFun i k p i) (rowSwapD i j D) a b * w b = 0) ↔
          (∀ a, a < r → ∑ b ∈ Finset.range n, D0 a b * w b = 0) := by
        intro w
        rw [elim_solEquiv _ _ _ r n hir w, rowSwap_solEquiv i j D r n hir hj2 w]
        exact hsol w
      exact ih (i + 1) (elimRows i (swapFun i k p i) (rowSwapD i j D)) (swapFun i k p)
        (by omega) hbij1 hfix1 hF1new hsol1 |>.imp (by omega) id

lemma invPermFun_eq (n : Nat) (P : Nat → Nat)
    (hinj : ∀ q1, q1 < n → ∀ q2, q2 < n → P q1 = P q2 → q1 = q2)
    (q : Nat) (hq : q < n) : invPermFun n P (P q) = q := by
  unfold invPermFun
  rw [findIn_first _ n 0 q (Nat.zero_le q) (by omega) (by simp) ?_]
  · rfl
  · intro x hx0 hxq
    apply decide_eq_false
    intro hEq
    exact absurd (hinj x (by omega) q hq hEq) (by omega)

lemma permFinal_inj (r n : Nat) (hrn : r ≤ n) (p : Nat → Nat)
    (hbij : Function.Bijective p) (hfix : ∀ x, n ≤ x → p x = x) :
    ∀ q1, q1 < n → ∀ q2, q2 < n → permFinal r n p q1 = permFinal r n p q2 → q1 = q2 := by
  intro q1 hq1 q2 hq2 hEq
  unfold permFinal at hEq
  by_cases h1 : q1 < n - r
  · rw [if_pos h1] at hEq
    by_cases h2 : q2 < n - r
    · rw [if_pos h2] at hEq
      have := hbij.1 hEq
      omega
    · rw [if_neg h2] at hEq
      have := hbij.1 hEq
      omega
  · rw [if_neg h1] at hEq
    by_cases h2 : q2 < n - r
    · rw [if_pos h2] at hEq
      have := hbij.1 hEq
      omega
    · rw [if_neg h2] at hEq
      have := hbij.1 hEq
      omega

lemma permFinal_parity (r n : Nat) (p : Nat → Nat) (m : Nat) (hm : m < r) (hrn : r ≤ n) :
    permFinal r n p ((n - r) + m) = p m := by
  unfold permFinal
  rw [if_neg (by omega)]
  congr 1
  omega

lemma permFinal_info (r n : Nat) (p : Nat → Nat) (j : Nat) (hj : j < n - r) :
    permFinal r n p j = p (r + j) := by
  unfold permFinal
  rw [if_pos hj]

lemma zmod2_add_self (x : ZMod 2) : x + x = 0 := by
  revert x
  decide

lemma bij_fix_lt (n : Nat) (p : Nat → Nat) (hbij : Function.Bijective p)
    (hfix : ∀ x, n ≤ x → p x = x) : ∀ m, p m < n ↔ m < n := by
  intro m
  constructor
  · intro h
    by_contra hm
    rw [hfix m (by omega)] at h
    omega
  · intro h
    by_contra hpm
    have hfx : p (p m) = p m := hfix (p m) (by omega)
    have := hbij.1 hfx
    omega

lemma getD_map_range {β : Type} (n q : Nat) (f : Nat → β) (d : β) (h : q < n) :
    ((List.range n).map f).getD q d = f q := by
  rw [List.getD_eq_getElem _ _ (by simpa using h), List.getElem_map, List.getElem_range]

lemma parity_dot_zero (r n : Nat) (hrn : r < n)
    (Df : Nat → Nat → ZMod 2) (pf : Nat → Nat) (i0 : Nat)
    (hbijf : Function.Bijective pf) (hfixf : ∀ x, n ≤ x → pf x = x)
    (hi0r : i0 ≤ r)
    (hF1 : ∀ l, l < i0 → ∀ a, a < r → Df a (pf l) = if a = l then 1 else 0)
    (hF2 : i0 < r → ∀ a, i0 ≤ a → a < r → ∀ m, i0 ≤ m → m < n → Df a (pf m) = 0)
    (v : Nat → ZMod 2)
    (hv1 : ∀ m, m < r →
      v (pf m) = ∑ j ∈ Finset.range (n - r), v (pf (r + j)) * Df m (pf (r + j)))
    (a : Nat) (ha : a < r) :
    ∑ b ∈ Finset.range n, Df a b * v b = 0 := by
  have hmem : ∀ m : Nat, m ∈ Finset.range n ↔ pf m ∈ Finset.range n := by
    intro m
    rw [Finset.mem_range, Finset.mem_range, bij_fix_lt n pf hbijf hfixf m]
  have hre : ∑ m ∈ Finset.range n, Df a (pf m) * v (pf m) =
      ∑ b ∈ Finset.range n, Df a b * v b :=
    Finset.sum_equiv (Equiv.ofBijective pf hbijf) hmem (fun m _ => rfl)
  rw [← hre, Finset.range_eq_Ico,
    ← Finset.sum_Ico_consecutive _ (Nat.zero_le r) (le_of_lt hrn),
    ← Finset.range_eq_Ico, Finset.sum_Ico_eq_sum_range]
  have hvzero : ∀ m, i0 ≤ m → m < r → v (pf m) = 0 := by
    intro m h1 h2
    rw [hv1 m h2]
    apply Finset.sum_eq_zero
    intro j hj
    rw [hF2 (by omega) m h1 h2 (r + j) (by omega)
      (by rw [Finset.mem_range] at hj; omega), mul_zero]
  have h1 : ∑ m ∈ Finset.range r, Df a (pf m) * v (pf m) = Df a (pf a) * v (pf a) := by
    apply Finset.sum_eq_single
    · intro m hm hma
      by_cases hmi : m < i0
      · rw [hF1 m hmi a ha, if_neg (by omega), zero_mul]
      · rw [hvzero m (by omega) (Finset.mem_range.mp hm), mul_zero]
    · intro hnot
      exact absurd (Finset.mem_range.mpr ha) hnot
  rw [h1]
  by_cases hai0 : a < i0
  · rw [hF1 a hai0 a ha, if_pos rfl, one_mul, hv1 a ha, ← Finset.sum_add_distrib]
    apply Finset.sum_eq_zero
    intro j hj
    rw [mul_comm]
    exact zmod2_add_self _
  · have hia : i0 ≤ a := by omega
    rw [hvzero a hia ha, mul_zero, zero_add]
    apply Finset.sum_eq_zero
    intro j hj
    rw [hF2 (by omega) a hia ha (r + j) (by omega)
      (by rw [Finset.mem_range] at hj; omega), zero_mul]

lemma checkXor_eq_dot (n r : Nat) (edges : List (Nat × Nat)) (hnd : edges.Nodup)
    (hb : ∀ e ∈ edges, e.1 < r ∧ e.2 < n) (ip : Nat → Nat) (cw : List (ZMod 2))
    (i : Nat) :
    checkXor (edges.map fun e => (e.1, ip e.2)) i cw =
      ∑ b ∈ Finset.range n, denseMatrix edges i b * cw.getD (ip b) 0 := by
  unfold checkXor
  rw [List.map_map]
  have hcomp : ((fun e : Nat × Nat => if e.1 = i then cw.getD e.2 0 else 0) ∘
      fun e : Nat × Nat => (e.1, ip e.2)) =
      fun e : Nat × Nat => if e.1 = i then cw.getD (ip e.2) 0 else 0 := rfl
  rw [hcomp, ← List.sum_toFinset _ hnd,
    ← Finset.sum_filter (fun e : Nat × Nat => e.1 = i) (fun e => cw.getD (ip e.2) 0)]
  have hR : ∑ b ∈ Finset.range n, denseMatrix edges i b * cw.getD (ip b) 0 =
      ∑ b ∈ (Finset.range n).filter (fun b => (i, b) ∈ edges), cw.getD (ip b) 0 := by
    rw [Finset.sum_filter]
    apply Finset.sum_congr rfl
    intro b _
    unfold denseMatrix
    by_cases h : (i, b) ∈ edges
    · rw [if_pos h, if_pos h, one_mul]
    · rw [if_neg h, if_neg h, zero_mul]
  rw [hR]
  apply Finset.sum_bij (fun e _ => e.2)
  · intro e he
    rw [Finset.mem_filter] at he
    obtain ⟨he1, he2⟩ := he
    rw [List.mem_toFinset] at he1
    rw [Finset.mem_filter]
    refine ⟨Finset.mem_range.mpr (hb e he1).2, ?_⟩
    have hpe : (i, e.2) = e := by
      rw [← he2]
    rw [hpe]
    exact he1
  · intro e1 h1 e2 h2 hEq
    rw [Finset.mem_filter] at h1 h2
    have hfst : e1.1 = e2.1 := by rw [h1.2, h2.2]
    exact Prod.ext hfst hEq
  · intro b hbmem
    rw [Finset.mem_filter, Finset.mem_range] at hbmem
    exact ⟨(i, b), by rw [Finset.mem_filter, List.mem_toFinset]
                      exact ⟨hbmem.2, rfl⟩, rfl⟩
  · intro e he
    rfl

/-- C1: after `create_encoder` has run on a code with `n_rows < n_cols`, a
duplicate-free edge list and in-range edges, for every info vector `u` the
call `encode(u)` reports success and returns a codeword of length `n_cols`
whose first `k = n_cols - n_rows` bits copy `u`, and for every check index
`i < n_rows` the XOR over the relabeled edges `e` with `row[e] = i` of
`c[col[e]]` is `0` (`H · c = 0` with `H` read in the relabeled column order).
This holds whether or not the row reduction found full row rank: parity bits
of pivot-free rows are identically zero. -/
theorem create_encoder_encode_parity (n_rows n_cols : Nat) (edges : List (Nat × Nat))
    (info cw0 : List (ZMod 2))
    (hrn : n_rows < n_cols)
    (hnd : edges.Nodup)
    (hb : ∀ e ∈ edges, e.1 < n_rows ∧ e.2 < n_cols) :
    (ldpc.encode n_rows n_cols
        (ldpc.create_encoder n_rows n_cols edges).parity_generator info cw0).1 = false ∧
    (ldpc.encode n_rows n_cols
        (ldpc.create_encoder n_rows n_cols edges).parity_generator info cw0).2.length =
      n_cols ∧
    (∀ q, q < n_cols - n_rows →
      (ldpc.encode n_rows n_cols
          (ldpc.create_encoder n_rows n_cols edges).parity_generator info cw0).2.getD q 0 =
        info.getD q 0) ∧
    (∀ i, i < n_rows →
      checkXor ((edges.map fun e => e.1).zip
          (ldpc.create_encoder n_rows n_cols edges).col) i
        (ldpc.encode n_rows n_cols
          (ldpc.create_encoder n_rows n_cols edges).parity_generator info cw0).2 = 0) := by
  obtain ⟨hi0a, hi0b, hbijf, hfixf, hF1, hF2, hsol⟩ :=
    gaussAux_invariant n_rows n_cols (denseMatrix edges) n_rows 0 (denseMatrix edges) id
      (by omega) Function.bijective_id (fun x _ => rfl)
      (fun l hl => absurd hl (by omega)) (fun w => Iff.rfl)
  -- Abbreviations, all definitionally equal to the `create_encoder` internals.
  have hpg : (ldpc.create_encoder n_rows n_cols edges).parity_generator =
      (List.range (n_cols - n_rows)).map fun j => (List.range n_rows).map fun i =>
        (gaussAux n_rows n_cols 0 n_rows (denseMatrix edges) id).1 i
          ((gaussAux n_rows n_cols 0 n_rows (denseMatrix edges) id).2.1 (n_rows + j)) := rfl
  have hcol : (ldpc.create_encoder n_rows n_cols edges).col =
      edges.map fun e => invPermFun n_cols (permFinal n_rows n_cols
        (gaussAux n_rows n_cols 0 n_rows (denseMatrix edges) id).2.1) e.2 := rfl
  have hpgne : ¬ (ldpc.create_encoder n_rows n_cols edges).parity_generator.isEmpty = true := by
    rw [hpg]
    intro hc
    rw [List.isEmpty_iff, List.map_eq_nil_iff, List.range_eq_nil] at hc
    omega
  have henc : ldpc.encode n_rows n_cols
      (ldpc.create_encoder n_rows n_cols edges).parity_generator info cw0 =
      (false, (List.range n_cols).map fun q =>
        if q < n_cols - n_rows then info.getD q 0
        else ∑ j ∈ Finset.range (n_cols - n_rows), info.getD j 0 *
          (((ldpc.create_encoder n_rows n_cols edges).parity_generator.getD j []).getD
            (q - (n_cols - n_rows)) 0)) := by
    unfold ldpc.encode
    rw [if_neg hpgne]
  rw [henc]
  refine ⟨rfl, by simp, ?_, ?_⟩
  · intro q hq
    rw [getD_map_range n_cols q _ 0 (by omega), if_pos hq]
  -- the parity checks
  intro i hi
  rw [hcol, List.zip_map']
  rw [checkXor_eq_dot n_cols n_rows edges hnd hb _ _ i]
  -- values of the parity-generator table
  have hpgval : ∀ j, j < n_cols - n_rows → ∀ m, m < n_rows →
      (((ldpc.create_encoder n_rows n_cols edges).parity_generator.getD j []).getD m 0) =
        (gaussAux n_rows n_cols 0 n_rows (denseMatrix edges) id).1 m
          ((gaussAux n_rows n_cols 0 n_rows (denseMatrix edges) id).2.1 (n_rows + j)) := by
    intro j hj m hm
    rw [hpg, getD_map_range _ j _ [] hj, getD_map_range _ m _ 0 hm]
  -- getD values of the codeword list
  have hcw : ∀ q, q < n_cols →
      (((List.range n_cols).map fun q =>
        if q < n_cols - n_rows then info.getD q 0
        else ∑ j ∈ Finset.range (n_cols - n_rows), info.getD j 0 *
          (((ldpc.create_encoder n_rows n_cols edges).parity_generator.getD j []).getD
            (q - (n_cols - n_rows)) 0)).getD q 0) =
      (if q < n_cols - n_rows then info.getD q 0
        else ∑ j ∈ Finset.range (n_cols - n_rows), info.getD j 0 *
          (((ldpc.create_encoder n_rows n_cols edges).parity_generator.getD j []).getD
            (q - (n_cols - n_rows)) 0)) := by
    intro q hq
    rw [getD_map_range n_cols q _ 0 hq]
  -- the inverse-permutation values
  have hpinj := permFinal_inj n_rows n_cols (by omega)
    (gaussAux n_rows n_cols 0 n_rows (denseMatrix edges) id).2.1 hbijf hfixf
  have hip1 : ∀ m, m < n_rows →
      invPermFun n_cols (permFinal n_rows n_cols
        (gaussAux n_rows n_cols 0 n_rows (denseMatrix edges) id).2.1)
        ((gaussAux n_rows n_cols 0 n_rows (denseMatrix edges) id).2.1 m) =
      (n_cols - n_rows) + m := by
    intro m hm
    rw [← permFinal_parity n_rows n_cols
      (gaussAux n_rows n_cols 0 n_rows (denseMatrix edges) id).2.1 m hm (by omega)]
    exact invPermFun_eq n_cols _ hpinj ((n_cols - n_rows) + m) (by omega)
  have hip2 : ∀ j, j < n_cols - n_rows →
      invPermFun n_cols (permFinal n_rows n_cols
        (gaussAux n_rows n_cols 0 n_rows (denseMatrix edges) id).2.1)
        ((gaussAux n_rows n_cols 0 n_rows (denseMatrix edges) id).2.1 (n_rows + j)) =
      j := by
    intro j hj
    rw [← permFinal_info n_rows n_cols
      (gaussAux n_rows n_cols 0 n_rows (denseMatrix edges) id).2.1 j hj]
    exact invPermFun_eq n_cols _ hpinj j (by omega)
  -- route through the solution-set equivalence of the row reduction
  dsimp only
  refine (hsol _).mp (fun a ha => ?_) i hi
  apply parity_dot_zero n_rows n_cols hrn _ _
    (gaussAux n_rows n_cols 0 n_rows (denseMatrix edges) id).2.2 hbijf hfixf hi0b hF1 hF2 _
    (fun m hm => ?_) a ha
  dsimp only
  rw [hip1 m hm, hcw ((n_cols - n_rows) + m) (by omega), if_neg (by omega),
    Nat.add_sub_cancel_left]
  apply Finset.sum_congr rfl
  intro j hj
  rw [Finset.mem_range] at hj
  rw [hip2 j hj, hcw j (by omega), if_pos hj, hpgval j hj m hm]

theorem create_encoder_encode_parity_witness :
    (ldpc.encode 2 4
        (ldpc.create_encoder 2 4 [(0, 0), (0, 1), (0, 3), (1, 1), (1, 2), (1, 3)]).parity_generator
        [1, 0] []).1 = false ∧
    (ldpc.encode 2 4
        (ldpc.create_encoder 2 4 [(0, 0), (0, 1), (0, 3), (1, 1), (1, 2), (1, 3)]).parity_generator
        [1, 0] []).2.length = 4 ∧
    (∀ q, q < 4 - 2 →
      (ldpc.encode 2 4
          (ldpc.create_encoder 2 4 [(0, 0), (0, 1), (0, 3), (1, 1), (1, 2), (1, 3)]).parity_generator
          [1, 0] []).2.getD q 0 = ([1, 0] : List (ZMod 2)).getD q 0) ∧
    (∀ i, i < 2 →
      checkXor (([(0, 0), (0, 1), (0, 3), (1, 1), (1, 2), (1, 3)].map fun e => e.1).zip
          (ldpc.create_encoder 2 4 [(0, 0), (0, 1), (0, 3), (1, 1), (1, 2), (1, 3)]).col) i
        (ldpc.encode 2 4
          (ldpc.create_encoder 2 4 [(0, 0), (0, 1), (0, 3), (1, 1), (1, 2), (1, 3)]).parity_generator
          [1, 0] []).2 = 0) :=
  create_encoder_encode_parity 2 4 [(0, 0), (0, 1), (0, 3), (1, 1), (1, 2), (1, 3)]
    [1, 0] [] (by decide) (by decide) (by decide)
